import Mathlib

/-!
# bcrypt user-defined functions for MariaDB: a shallow embedding of `bcrypt.c`

The C file is embedded function by function.  Conventions:

* a byte is a `Nat`; a `char` array the program owns (`pass`, `hash`, `chk_hash`,
  `randb`, `salt`, `res`) is a `List Nat` whose length is the array's capacity;
* memory handed over by the caller through a pointer (`args->args[i]`) is a total
  function `Nat → Nat` from offsets to bytes, and a possibly-NULL pointer is an `Option`;
* `size_t` and `unsigned long` are 64 bits wide: `src_sz + 1` is taken modulo `2 ^ 64`;
* `int` is 32 bits wide and a `size_t` converted to `int` wraps (two's complement);
* a store outside the bounds of an owned array, or a `strlen` that runs off its end,
  is undefined behaviour and is reported as `Run.oob`;
* loops that wait on the operating system (`EINTR` retries) take fuel; running out of
  fuel is reported as `Run.spin`;
* `open`, `read`, `close`, the uninitialised contents of stack arrays and the two
  crypt_blowfish entry points are parameters.
-/

set_option autoImplicit false

namespace Bcrypt

/-! ## Constants -/

/-- The macro `BCRYPT_HASHSIZE`. -/
def BCRYPT_HASHSIZE : Nat := 64

/-- The macro `RANDBYTES`. -/
def RANDBYTES : Nat := 16

/-- The macro `PASS_MAXLEN`. -/
def PASS_MAXLEN : Nat := 128

/-- The macro `WORKFACTOR_MIN`. -/
def WORKFACTOR_MIN : Int := 4

/-- The macro `WORKFACTOR_MAX`. -/
def WORKFACTOR_MAX : Int := 16

/-- The macro `WORKFACTOR_DEFAULT`. -/
def WORKFACTOR_DEFAULT : Int := 12

/-- Number of values of a `size_t` / `unsigned long` (64 bits). -/
def SIZE_MOD : Nat := 2 ^ 64

/-- The largest `int` (32 bits). -/
def INT_MAX : Nat := 2 ^ 31 - 1

/-! ## Outcomes of a run -/

/-- How a call ends: it returns a value, it performs an access outside an array it owns
(undefined behaviour), or it is still looping when the fuel is used up. -/
inductive Run (α : Type) where
  | ret (a : α)
  | oob
  | spin
  deriving DecidableEq, Repr

/-! ## C strings held in arrays -/

/-- The C library `strlen` on an array: index of the first zero byte; `none` when the
array holds no zero byte (the scan leaves the array). -/
def c_strlen : List Nat → Option Nat
  | [] => none
  | b :: bs => if b = 0 then some 0 else (c_strlen bs).map (· + 1)

/-- The bytes of the NUL-terminated string at the start of an array (terminator excluded). -/
def c_str (buf : List Nat) : List Nat := buf.takeWhile (· ≠ 0)

/-- Conversion of a `size_t` to `int`: reduction modulo `2 ^ 32` into `[-2 ^ 31, 2 ^ 31)`. -/
def size_to_int (n : Nat) : Int :=
  if n % 2 ^ 32 < 2 ^ 31 then ((n % 2 ^ 32 : Nat) : Int) else ((n % 2 ^ 32 : Nat) : Int) - 2 ^ 32

/-- Caller memory that holds the byte sequence `p` at offsets `0 .. p.length - 1`
(and zero bytes after it). -/
def mem_of (p : List Nat) : Nat → Nat := fun i => p.getD i 0

/-- An owned array of `n` bytes whose initial contents are the indeterminate bytes `junk`. -/
def uninit (junk : Nat → Nat) (n : Nat) : List Nat := (List.range n).map junk

/-! ## timing_safe_strcmp -/

/-- The loop `for (i = 0; i < len1; ++i) ret |= (u1[i] ^ u2[i]);` with `n` iterations left
to run, the loop variable at `i`, the accumulator at `ret` and `steps` iterations already
executed.  Returns the final accumulator and the number of iterations executed. -/
def timing_safe_loop (u1 u2 : List Nat) : Nat → Nat → Nat → Nat → Nat × Nat
  | 0, _, ret, steps => (ret, steps)
  | n + 1, i, ret, steps =>
    timing_safe_loop u1 u2 n (i + 1) (ret ||| (u1.getD i 0 ^^^ u2.getD i 0)) (steps + 1)

/-- The function `timing_safe_strcmp`, instrumented with the number of executed iterations
of its per-byte loop: the result is `(return value, iterations)`. -/
def timing_safe_strcmp_steps (str1 str2 : List Nat) : Run (Int × Nat) :=
  match c_strlen str1, c_strlen str2 with
  | some l1, some l2 =>
    let len1 : Int := size_to_int l1
    let len2 : Int := size_to_int l2
    if len1 ≠ len2 then .ret (1, 0)
    else
      let r := timing_safe_loop str1 str2 len1.toNat 0 0 0
      .ret ((r.1 : Int), r.2)
  | _, _ => .oob

/-- The function `timing_safe_strcmp`: its return value. -/
def timing_safe_strcmp (str1 str2 : List Nat) : Run Int :=
  match timing_safe_strcmp_steps str1 str2 with
  | .ret r => .ret r.1
  | .oob => .oob
  | .spin => .spin

/-! ## my_str_to_c_str -/

/-- The copy loop of `my_str_to_c_str` followed by the terminator store, with `n`
iterations left before `i` reaches `src_sz`. -/
def copy_loop (src : Nat → Nat) : Nat → Nat → List Nat → Run (Int × List Nat)
  | 0, i, dst => if i < dst.length then .ret (0, dst.set i 0) else .oob
  | n + 1, i, dst =>
    if src i = 0 then .ret (-1, dst)
    else if i < dst.length then copy_loop src n (i + 1) (dst.set i (src i))
    else .oob

/-- The function `my_str_to_c_str`.  `dst` is the destination array (`none` for a NULL
pointer), `dst_sz` the capacity the caller declares for it, `src` the source memory
(`none` for NULL) and `src_sz` the declared source length.  The result is the return
value together with the destination array after the call.  The three disjuncts of the
first `if` all return -1 before any store, so the two NULL tests are taken first. -/
def my_str_to_c_str (dst : Option (List Nat)) (dst_sz : Nat) (src : Option (Nat → Nat))
    (src_sz : Nat) : Run (Int × Option (List Nat)) :=
  match dst, src with
  | some d, some s =>
    if (src_sz + 1) % SIZE_MOD > dst_sz then .ret (-1, some d)
    else
      match copy_loop s src_sz 0 d with
      | .ret (r, d') => .ret (r, some d')
      | .oob => .oob
      | .spin => .spin
  | _, _ => .ret (-1, dst)

/-! ## The operating system: open, read, close -/

/-- What one call of `read` does: it stores the bytes `bs` and returns `bs.length`
(`data []` is end of file, return value 0); or it returns -1 with `errno = EINTR`;
or it returns -1 with another `errno`. -/
inductive ReadResult where
  | data (bs : List Nat)
  | eintr
  | error
  deriving DecidableEq, Repr

/-- What one call of `close` does: it returns 0; or -1 with `errno = EINTR`; or -1 with
another `errno`. -/
inductive CloseResult where
  | ok
  | eintr
  | error
  deriving DecidableEq, Repr

/-- A system call issued by the program: `open`; `read(fd, out + off, nbyte)`;
`close(fd)`. -/
inductive Sys where
  | sys_open
  | sys_read (fd : Int) (off nbyte : Nat)
  | sys_close (fd : Int)
  deriving DecidableEq, Repr

/-- Everything `bcrypt_hash` takes from its surroundings: the value returned by
`open("/dev/urandom", O_RDONLY)`, the result of the `k`-th `read` call (given the
descriptor and the number of bytes asked for), the result of the `k`-th `close` call,
and the indeterminate initial bytes of each stack array (array number, offset). -/
structure World where
  open_fd : Int
  read : Nat → Int → Nat → ReadResult
  close : Nat → Int → CloseResult
  junk : Nat → Nat → Nat

/-- The array `buf` after `bs` has been stored at offset `off`. -/
def store (buf : List Nat) (off : Nat) (bs : List Nat) : List Nat :=
  buf.take off ++ bs ++ buf.drop (off + bs.length)

/-- The function `try_close`: `close` is called again while it reports `EINTR`.  `k` is
the number of `close` calls made so far; the result is the return value and the number
of `close` calls made in all. -/
def try_close (close : Nat → Int → CloseResult) (fd : Int) : Nat → Nat → Run (Int × Nat)
  | 0, _ => .spin
  | fuel + 1, k =>
    match close k fd with
    | .eintr => try_close close fd fuel (k + 1)
    | .ok => .ret (0, k + 1)
    | .error => .ret (-1, k + 1)

/-- The inner `for (;;)` of `try_read`: one `read` of `n` bytes, repeated while it reports
`EINTR`.  `k` is the number of `read` calls made so far; the result is the first result
other than `EINTR` and the number of `read` calls made in all. -/
def read_retry (read : Nat → Int → Nat → ReadResult) (fd : Int) (n : Nat) :
    Nat → Nat → Option (ReadResult × Nat)
  | 0, _ => none
  | fuel + 1, k =>
    match read k fd n with
    | .eintr => read_retry read fd n fuel (k + 1)
    | r => some (r, k + 1)

/-- The outer `while (total < count)` of `try_read`.  `out` is the destination array,
`total` the number of bytes obtained so far, `k` the number of `read` calls made so far
and `tr` the list of those calls.  The result is the return value, the destination array
and the list of all `read` calls. -/
def try_read_loop (read : Nat → Int → Nat → ReadResult) (fd : Int) (count : Nat) :
    Nat → Nat → List Sys → List Nat → Nat → Run (Int × List Nat × List Sys)
  | 0, _, tr, out, total => if total < count then .spin else .ret (0, out, tr)
  | fuel + 1, k, tr, out, total =>
    if total < count then
      match read_retry read fd (count - total) (fuel + 1) k with
      | none => .spin
      | some (r, k') =>
        let tr' := tr ++ List.replicate (k' - k) (Sys.sys_read fd total (count - total))
        match r with
        | .data bs =>
          if bs.length < 1 then .ret (-1, out, tr')
          else if total + bs.length ≤ out.length then
            try_read_loop read fd count fuel k' tr' (store out total bs) (total + bs.length)
          else .oob
        | _ => .ret (-1, out, tr')
    else .ret (0, out, tr)

/-- The function `try_read`. -/
def try_read (read : Nat → Int → Nat → ReadResult) (fuel : Nat) (fd : Int) (out : List Nat)
    (count : Nat) : Run (Int × List Nat × List Sys) :=
  try_read_loop read fd count fuel 0 [] out 0

/-! ## The crypt_blowfish entry points -/

/-- The two entry points of crypt_blowfish (`ow-crypt.h`) that the program calls.  Each
takes its string arguments as byte sequences and returns `none` for a NULL result, and
otherwise the string it has written to its output array.  A string that is returned has
been written, with its terminator, inside the `output_size` bytes of the output array:
it is shorter than `output_size` and holds no zero byte.

* `crypt_gensalt_rn pfx count input size output_size`
* `crypt_rn key setting size` -/
structure Primitive where
  crypt_gensalt_rn : List Nat → Nat → List Nat → Nat → Nat → Option (List Nat)
  crypt_rn : List Nat → List Nat → Nat → Option (List Nat)
  gensalt_fits : ∀ pfx count input size output_size s,
    crypt_gensalt_rn pfx count input size output_size = some s →
      s.length < output_size ∧ 0 ∉ s
  crypt_fits : ∀ key setting size h,
    crypt_rn key setting size = some h → h.length < size ∧ 0 ∉ h

/-- A call `crypt_rn(key, setting, output, size)` on arrays: both string arguments are
read up to their terminator; the result is `none` for NULL and otherwise the output
array, which holds the returned string and its terminator. -/
def call_crypt_rn (P : Primitive) (key setting : List Nat) (size : Nat) :
    Run (Option (List Nat)) :=
  match c_strlen key, c_strlen setting with
  | some _, some _ =>
    match P.crypt_rn (c_str key) (c_str setting) size with
    | some h => .ret (some (h ++ [0]))
    | none => .ret none
  | _, _ => .oob

/-- A call `crypt_gensalt_rn(pfx, count, input, size, output, output_size)`; `input` is
an array of which the first `size` bytes are read. -/
def call_crypt_gensalt_rn (P : Primitive) (pfx : List Nat) (count : Nat) (input : List Nat)
    (size output_size : Nat) : Run (Option (List Nat)) :=
  if size ≤ input.length then
    match P.crypt_gensalt_rn pfx count (input.take size) size output_size with
    | some s => .ret (some (s ++ [0]))
    | none => .ret none
  else .oob

/-! ## bcrypt_hash -/

/-- The string literal `"$2b$"`. -/
def magic_2b : List Nat := [36, 50, 98, 36]

/-- The work factor computed by `bcrypt_hash` from `args->args[1]` (a NULL pointer or a
pointer to a `long long`): default when absent, then clamped. -/
def resolve_workfactor (args1 : Option Int) : Int :=
  let workfactor : Int :=
    match args1 with
    | some v => v
    | none => WORKFACTOR_DEFAULT
  if workfactor < WORKFACTOR_MIN then WORKFACTOR_MIN
  else if workfactor > WORKFACTOR_MAX then WORKFACTOR_MAX
  else workfactor

/-- What `bcrypt_hash` leaves behind: the returned pointer (`none` for NULL, otherwise
the array `res`), the values of `*len` and `*is_null`, and the system calls issued. -/
structure HashResult where
  ret : Option (List Nat)
  len : Nat
  is_null : Nat
  sys : List Sys
  deriving DecidableEq, Repr

/-- The tail of `bcrypt_hash` from the call of `crypt_gensalt_rn` on: salt generation
by the primitive, hash computation by the primitive, `*len = strlen(res)`. -/
def bcrypt_hash_crypt (P : Primitive) (pass randb : List Nat) (workfactor : Int)
    (len is_null : Nat) (sys : List Sys) : Run HashResult :=
  match call_crypt_gensalt_rn P magic_2b (workfactor % SIZE_MOD).toNat randb
      RANDBYTES BCRYPT_HASHSIZE with
  | .oob => .oob
  | .spin => .spin
  | .ret none => .ret ⟨none, len, 1, sys⟩
  | .ret (some salt) =>
    match call_crypt_rn P pass salt BCRYPT_HASHSIZE with
    | .oob => .oob
    | .spin => .spin
    | .ret none => .ret ⟨none, len, 1, sys⟩
    | .ret (some res) =>
      match c_strlen res with
      | none => .oob
      | some l => .ret ⟨some res, l % SIZE_MOD, is_null, sys⟩

/-- The function `bcrypt_hash`.  `args0`, `lengths0` are `args->args[0]` and
`args->lengths[0]`, `args1` is `args->args[1]`; `len` and `is_null` are the values of
`*len` and `*is_null` on entry.  (`initid` and `err` are not used by the C function.) -/
def bcrypt_hash (P : Primitive) (w : World) (fuel : Nat) (args0 : Option (Nat → Nat))
    (lengths0 : Nat) (args1 : Option Int) (len is_null : Nat) : Run HashResult :=
  match args0 with
  | none => .ret ⟨none, len, 1, []⟩
  | some _ =>
    match my_str_to_c_str (some (uninit (w.junk 0) (PASS_MAXLEN + 1))) (PASS_MAXLEN + 1)
        args0 lengths0 with
    | .oob => .oob
    | .spin => .spin
    | .ret (r, pass) =>
      if r ≠ 0 then .ret ⟨none, len, 1, []⟩
      else
        let workfactor := resolve_workfactor args1
        let fd := w.open_fd
        if fd < 0 then .ret ⟨none, len, 1, [.sys_open]⟩
        else
          match try_read w.read fuel fd (uninit (w.junk 1) RANDBYTES) RANDBYTES with
          | .oob => .oob
          | .spin => .spin
          | .ret (rd, randb, reads) =>
            if rd ≠ 0 then
              match try_close w.close fd fuel 0 with
              | .oob => .oob
              | .spin => .spin
              | .ret (_, nc) =>
                .ret ⟨none, len, 1,
                  Sys.sys_open :: (reads ++ List.replicate nc (Sys.sys_close fd))⟩
            else
              match try_close w.close fd fuel 0 with
              | .oob => .oob
              | .spin => .spin
              | .ret (cl, nc) =>
                let sys := Sys.sys_open :: (reads ++ List.replicate nc (Sys.sys_close fd))
                if cl ≠ 0 then .ret ⟨none, len, 1, sys⟩
                else bcrypt_hash_crypt P (pass.getD []) randb workfactor len is_null sys

/-! ## bcrypt_check -/

/-- What `bcrypt_check` leaves behind: the returned value and the value of `*is_null`. -/
structure CheckResult where
  ret : Int
  is_null : Nat
  deriving DecidableEq, Repr

/-- The function `bcrypt_check`.  `args0`, `lengths0`, `args1`, `lengths1` are
`args->args[0]`, `args->lengths[0]`, `args->args[1]`, `args->lengths[1]`; `is_null` is
the value of `*is_null` on entry; `junk` gives the indeterminate initial bytes of the
stack arrays.  (`initid` and `err` are not used by the C function.) -/
def bcrypt_check (P : Primitive) (junk : Nat → Nat → Nat) (args0 : Option (Nat → Nat))
    (lengths0 : Nat) (args1 : Option (Nat → Nat)) (lengths1 : Nat) (is_null : Nat) :
    Run CheckResult :=
  match args0 with
  | none => .ret ⟨0, 1⟩
  | some _ =>
    match my_str_to_c_str (some (uninit (junk 0) (PASS_MAXLEN + 1))) (PASS_MAXLEN + 1)
        args0 lengths0 with
    | .oob => .oob
    | .spin => .spin
    | .ret (r0, pass) =>
      if r0 ≠ 0 then .ret ⟨0, 1⟩
      else
        match args1 with
        | none => .ret ⟨0, 1⟩
        | some _ =>
          match my_str_to_c_str (some (uninit (junk 1) BCRYPT_HASHSIZE)) BCRYPT_HASHSIZE
              args1 lengths1 with
          | .oob => .oob
          | .spin => .spin
          | .ret (r1, hash) =>
            if r1 ≠ 0 then .ret ⟨0, 1⟩
            else
              match call_crypt_rn P (pass.getD []) (hash.getD []) BCRYPT_HASHSIZE with
              | .oob => .oob
              | .spin => .spin
              | .ret none => .ret ⟨0, 1⟩
              | .ret (some chk_hash) =>
                match timing_safe_strcmp (hash.getD []) chk_hash with
                | .oob => .oob
                | .spin => .spin
                | .ret ret =>
                  if ret = 0 then .ret ⟨1, is_null⟩
                  else if ret > 0 then .ret ⟨0, is_null⟩
                  else .ret ⟨0, 1⟩

/-! ## The registration adapters -/

/-- The enumeration `Item_result` of the host (`mysql.h`). -/
inductive Item_result where
  | STRING_RESULT
  | REAL_RESULT
  | INT_RESULT
  | ROW_RESULT
  | DECIMAL_RESULT
  deriving DecidableEq, Repr

/-- The fields of the host structure `UDF_INIT` (`mysql.h`) that the program writes. -/
structure UDF_INIT where
  maybe_null : Nat
  max_length : Nat
  const_item : Nat
  deriving DecidableEq, Repr

/-- The fields of the host structure `UDF_ARGS` (`mysql.h`) that the two `_init`
functions use: `arg_count` and the array `arg_type`.  (`args` and `lengths` are what
`bcrypt_hash` and `bcrypt_check` take as `args0`, `lengths0`, `args1`, `lengths1`.) -/
structure UDF_ARGS where
  arg_count : Nat
  arg_type : List Item_result
  deriving DecidableEq, Repr

/-- What an `_init` function leaves behind: the returned `my_bool`, the two host
structures, and the string held by the `message` array. -/
structure InitResult where
  ret : Nat
  initid : UDF_INIT
  args : UDF_ARGS
  message : String
  deriving DecidableEq, Repr

/-- The function `bcrypt_hash_init`.  The stores to `args->arg_type[0]` and
`args->arg_type[1]` are outside the array when it has fewer than two entries. -/
def bcrypt_hash_init (initid : UDF_INIT) (args : UDF_ARGS) (message : String) :
    Run InitResult :=
  if args.arg_count ≠ 2 then
    .ret ⟨1, initid, args, "BCRYPT_HASH() requires a string and an integer parameter"⟩
  else if 1 < args.arg_type.length then
    .ret ⟨0, ⟨1, BCRYPT_HASHSIZE, 0⟩,
      ⟨args.arg_count,
        (args.arg_type.set 0 Item_result.STRING_RESULT).set 1 Item_result.INT_RESULT⟩,
      message⟩
  else .oob

/-- The function `bcrypt_check_init`. -/
def bcrypt_check_init (initid : UDF_INIT) (args : UDF_ARGS) (message : String) :
    Run InitResult :=
  if args.arg_count ≠ 2 then
    .ret ⟨1, initid, args, "BCRYPT_CHECK() requires two string parameters"⟩
  else if 1 < args.arg_type.length then
    .ret ⟨0, ⟨1, BCRYPT_HASHSIZE, 0⟩,
      ⟨args.arg_count,
        (args.arg_type.set 0 Item_result.STRING_RESULT).set 1 Item_result.STRING_RESULT⟩,
      message⟩
  else .oob

/-! ## Auxiliary definitions used in the statements -/

/-- The bitwise OR over all positions `i` of `a[i] XOR b[i]`, for two byte sequences
(positions present in both). -/
def or_of_xors (a b : List Nat) : Nat :=
  (List.zipWith (· ^^^ ·) a b).foldl (· ||| ·) 0

/-- The number of iterations of the per-byte loop of `timing_safe_strcmp` as a function of
the two string lengths: none when the lengths, stored in `int`, differ; otherwise the
first length as stored in `int` (none when that is negative). -/
def step_count (l1 l2 : Nat) : Nat :=
  if size_to_int l1 ≠ size_to_int l2 then 0 else (size_to_int l1).toNat

/-- The destination array after a successful copy of `n` bytes of `s` into `d`. -/
def copied (d : List Nat) (s : Nat → Nat) (n : Nat) : List Nat :=
  (List.range n).map s ++ 0 :: d.drop (n + 1)

/-- The results of the `read` calls listed in `tr`, the first of which is call number
`k` (the oracle is asked with the descriptor and the byte count of each call). -/
def results_of (read : Nat → Int → Nat → ReadResult) : Nat → List Sys → List ReadResult
  | _, [] => []
  | k, Sys.sys_read fd _ n :: tr => read k fd n :: results_of read (k + 1) tr
  | k, Sys.sys_open :: tr => results_of read (k + 1) tr
  | k, Sys.sys_close _ :: tr => results_of read (k + 1) tr

/-- The bytes delivered by a list of `read` results, in order. -/
def delivered : List ReadResult → List Nat
  | [] => []
  | ReadResult.data bs :: rs => bs ++ delivered rs
  | ReadResult.eintr :: rs => delivered rs
  | ReadResult.error :: rs => delivered rs

/-- The calls `read(fd, out + total, count - total)` issued by a reader that keeps `total`
at the number of bytes delivered so far, one call per result: only a result that
delivers bytes moves the offset of the next call. -/
def read_calls (fd : Int) (count : Nat) : Nat → List ReadResult → List Sys
  | _, [] => []
  | total, ReadResult.data bs :: rs =>
    Sys.sys_read fd total (count - total) :: read_calls fd count (total + bs.length) rs
  | total, ReadResult.eintr :: rs =>
    Sys.sys_read fd total (count - total) :: read_calls fd count total rs
  | total, ReadResult.error :: rs =>
    Sys.sys_read fd total (count - total) :: read_calls fd count total rs

/-- A `read` result after which `try_read` goes on reading: `EINTR`, or at least one
byte. -/
def goes_on (r : ReadResult) : Prop :=
  r = ReadResult.eintr ∨ ∃ bs, r = ReadResult.data bs ∧ 0 < bs.length

/-- A `read` result that ends `try_read` with -1: end of file, or an error other than
`EINTR`. -/
def gives_up (r : ReadResult) : Prop :=
  r = ReadResult.data [] ∨ r = ReadResult.error

/-! ## A concrete world and a concrete primitive, for evaluating the embedding -/

/-- The salt string of the stand-in for `crypt_gensalt_rn`: the prefix, the cost in two
decimal digits, `$`, and one letter per input byte. -/
def toy_salt (pfx : List Nat) (count : Nat) (input : List Nat) : List Nat :=
  (pfx ++ [48 + count / 10 % 10, 48 + count % 10, 36]
    ++ input.map (fun b => 65 + b % 26)).filter (· ≠ 0)

/-- A stand-in for `crypt_gensalt_rn`: `toy_salt`, or NULL when that does not fit the
output array. -/
def toy_gensalt (pfx : List Nat) (count : Nat) (input : List Nat) (_size output_size : Nat) :
    Option (List Nat) :=
  if (toy_salt pfx count input).length < output_size then some (toy_salt pfx count input)
  else none

/-- The hash string of the stand-in for `crypt_rn`: the first 23 bytes of the setting
followed by one letter computed from the key. -/
def toy_hash (key setting : List Nat) : List Nat :=
  (setting.take 23 ++ [65 + key.sum % 26]).filter (· ≠ 0)

/-- A stand-in for `crypt_rn`: `toy_hash`, or NULL when that does not fit the output
array. -/
def toy_crypt (key setting : List Nat) (size : Nat) : Option (List Nat) :=
  if (toy_hash key setting).length < size then some (toy_hash key setting) else none

/-- The stand-in primitive. -/
def toy_primitive : Primitive where
  crypt_gensalt_rn := toy_gensalt
  crypt_rn := toy_crypt
  gensalt_fits := by
    intro pfx count input size output_size s h
    unfold toy_gensalt at h
    split at h
    · rename_i hlt
      cases h
      exact ⟨hlt, fun hm => by simpa [toy_salt] using (List.mem_filter.1 hm).2⟩
    · cases h
  crypt_fits := by
    intro key setting size h hh
    unfold toy_crypt at hh
    split at hh
    · rename_i hlt
      cases hh
      exact ⟨hlt, fun hm => by simpa [toy_hash] using (List.mem_filter.1 hm).2⟩
    · cases hh

/-- A world in which `open` returns descriptor 3, every `read` delivers all the bytes
asked for (the bytes 1, 2, 3, ...), every `close` succeeds and stack arrays start out
filled with the byte 170. -/
def toy_world : World where
  open_fd := 3
  read := fun _ _ n => .data ((List.range n).map (· + 1))
  close := fun _ _ => .ok
  junk := fun _ _ => 170

/-- The concrete world, except that the first `close` call is interrupted by a signal
(`EINTR`) and the second succeeds. -/
def toy_world_eintr : World where
  open_fd := 3
  read := fun _ _ n => .data ((List.range n).map (· + 1))
  close := fun k _ => if k = 0 then .eintr else .ok
  junk := fun _ _ => 170

/-- A `read` whose first call is interrupted (`EINTR`), whose second call delivers at most
five bytes, whose third call is interrupted again and whose later calls deliver all the
bytes asked for. -/
def toy_read_chunked : Nat → Int → Nat → ReadResult
  | 0, _, _ => .eintr
  | 1, _, n => .data ((List.range (min n 5)).map (· + 1))
  | 2, _, _ => .eintr
  | _ + 3, _, n => .data ((List.range n).map (· + 101))

/-- A `read` whose first call delivers at most three bytes and whose later calls report
end of file. -/
def toy_read_eof : Nat → Int → Nat → ReadResult
  | 0, _, n => .data ((List.range (min n 3)).map (· + 1))
  | _ + 1, _, _ => .data []

/-- The concrete world, except that `read` is `toy_read_eof`. -/
def toy_world_eof : World where
  open_fd := 3
  read := toy_read_eof
  close := fun _ _ => .ok
  junk := fun _ _ => 170

/-- The sixteen bytes the concrete world's `read` delivers. -/
def toy_r : List Nat := [1, 2, 3, 4, 5, 6, 7, 8, 9, 10, 11, 12, 13, 14, 15, 16]

/-- The salt the stand-in primitive makes from cost 10 and `toy_r`: `$2b$10$BCD...Q`. -/
def toy_salt_10 : List Nat :=
  [36, 50, 98, 36, 49, 48, 36, 66, 67, 68, 69, 70, 71, 72, 73, 74, 75, 76, 77, 78, 79, 80, 81]

/-- The hash the stand-in primitive computes for the password "hi" and `toy_salt_10`. -/
def toy_hash_hi : List Nat := toy_salt_10 ++ [66]

/-- The hash the stand-in primitive computes for the empty password and `toy_salt_10`. -/
def toy_hash_empty : List Nat := toy_salt_10 ++ [65]

/-! # Theorems -/

/-! ## Lemmas: C strings -/

theorem c_strlen_of_mem : ∀ (buf : List Nat), 0 ∈ buf → c_strlen buf = some (c_str buf).length
  | [], h => by simp at h
  | b :: bs, h => by
    by_cases hb : b = 0
    · simp [c_strlen, c_str, hb]
    · have hm : 0 ∈ bs := by
        rcases List.mem_cons.1 h with h0 | h0
        · exact absurd h0.symm hb
        · exact h0
      have ih := c_strlen_of_mem bs hm
      simp [c_strlen, c_str, hb, List.takeWhile_cons] at ih ⊢
      simp [c_str, ih]

theorem c_strlen_none_of_not_mem : ∀ (buf : List Nat), 0 ∉ buf → c_strlen buf = none
  | [], _ => rfl
  | b :: bs, h => by
    have hb : b ≠ 0 := fun e => h (by simp [e])
    have hm : 0 ∉ bs := fun e => h (List.mem_cons_of_mem _ e)
    simp [c_strlen, hb, c_strlen_none_of_not_mem bs hm]

theorem c_strlen_isSome_iff (buf : List Nat) : (∃ n, c_strlen buf = some n) ↔ 0 ∈ buf := by
  constructor
  · rintro ⟨n, hn⟩
    by_contra h
    rw [c_strlen_none_of_not_mem buf h] at hn
    cases hn
  · intro h
    exact ⟨_, c_strlen_of_mem buf h⟩

theorem c_str_append_zero : ∀ (s t : List Nat), 0 ∉ s → c_str (s ++ 0 :: t) = s
  | [], t, _ => by simp [c_str]
  | x :: s, t, h => by
    have hx : x ≠ 0 := fun e => h (by simp [e])
    have hs : 0 ∉ s := fun e => h (List.mem_cons_of_mem _ e)
    have ih := c_str_append_zero s t hs
    simp only [c_str] at ih ⊢
    simpa [List.takeWhile_cons, hx] using ih

theorem c_str_no_zero (buf : List Nat) : 0 ∉ c_str buf := by
  intro h
  have := List.mem_takeWhile_imp h
  simp at this

theorem c_str_decomp : ∀ (buf : List Nat), 0 ∈ buf → ∃ t, buf = c_str buf ++ 0 :: t
  | [], h => by simp at h
  | b :: bs, h => by
    by_cases hb : b = 0
    · exact ⟨bs, by simp [c_str, hb]⟩
    · have hm : 0 ∈ bs := by
        rcases List.mem_cons.1 h with h0 | h0
        · exact absurd h0.symm hb
        · exact h0
      obtain ⟨t, ht⟩ := c_str_decomp bs hm
      refine ⟨t, ?_⟩
      have : c_str (b :: bs) = b :: c_str bs := by simp [c_str, List.takeWhile_cons, hb]
      rw [this, List.cons_append, ← ht]

theorem c_strlen_append_zero (s t : List Nat) (h : 0 ∉ s) :
    c_strlen (s ++ 0 :: t) = some s.length := by
  rw [c_strlen_of_mem _ (by simp), c_str_append_zero s t h]

theorem size_to_int_of_le (n : Nat) (h : n ≤ INT_MAX) : size_to_int n = (n : Int) := by
  have h1 : n < 2 ^ 31 := by unfold INT_MAX at h; omega
  have h2 : n % 2 ^ 32 = n := Nat.mod_eq_of_lt (by omega)
  unfold size_to_int
  rw [h2, if_pos h1]

/-! ## Lemmas: bitwise accumulation -/

theorem lor_eq_zero_iff (x y : Nat) : x ||| y = 0 ↔ x = 0 ∧ y = 0 := by
  constructor
  · intro h
    have hb : ∀ i, (x.testBit i || y.testBit i) = false := by
      intro i
      rw [← Nat.testBit_or, h, Nat.zero_testBit]
    constructor
    · apply Nat.eq_of_testBit_eq
      intro i
      have := hb i
      simp only [Bool.or_eq_false_iff] at this
      simp [this.1]
    · apply Nat.eq_of_testBit_eq
      intro i
      have := hb i
      simp only [Bool.or_eq_false_iff] at this
      simp [this.2]
  · rintro ⟨rfl, rfl⟩
    rfl

theorem foldl_lor_eq_zero_iff : ∀ (l : List Nat) (r : Nat),
    l.foldl (· ||| ·) r = 0 ↔ r = 0 ∧ ∀ x ∈ l, x = 0
  | [], r => by simp
  | x :: l, r => by
    rw [List.foldl_cons, foldl_lor_eq_zero_iff l (r ||| x), lor_eq_zero_iff]
    simp only [List.mem_cons, forall_eq_or_imp]
    tauto

theorem zipWith_xor_all_zero_iff : ∀ (a b : List Nat), a.length = b.length →
    ((∀ x ∈ List.zipWith (· ^^^ ·) a b, x = 0) ↔ a = b)
  | [], [], _ => by simp
  | [], _ :: _, h => by simp at h
  | _ :: _, [], h => by simp at h
  | x :: a, y :: b, h => by
    have hl : a.length = b.length := by simpa using h
    have ih := zipWith_xor_all_zero_iff a b hl
    simp only [List.zipWith_cons_cons, List.mem_cons, forall_eq_or_imp, Nat.xor_eq_zero, ih,
      List.cons.injEq]

theorem or_of_xors_eq_zero_iff (a b : List Nat) (h : a.length = b.length) :
    or_of_xors a b = 0 ↔ a = b := by
  unfold or_of_xors
  rw [foldl_lor_eq_zero_iff, zipWith_xor_all_zero_iff a b h]
  simp

/-! ## Lemmas: the comparison loop -/

theorem timing_safe_loop_steps (u1 u2 : List Nat) : ∀ (n i r s : Nat),
    (timing_safe_loop u1 u2 n i r s).2 = s + n
  | 0, _, _, _ => rfl
  | n + 1, i, r, s => by
    rw [timing_safe_loop, timing_safe_loop_steps u1 u2 n]
    omega

theorem timing_safe_loop_shift (x y : Nat) (u1 u2 : List Nat) : ∀ (n i r s : Nat),
    timing_safe_loop (x :: u1) (y :: u2) n (i + 1) r s = timing_safe_loop u1 u2 n i r s
  | 0, _, _, _ => rfl
  | n + 1, i, r, s => by
    rw [timing_safe_loop, timing_safe_loop, timing_safe_loop_shift x y u1 u2 n]
    simp

theorem timing_safe_loop_value : ∀ (sa sb : List Nat), sa.length = sb.length →
    ∀ (ta tb : List Nat) (r s : Nat),
    (timing_safe_loop (sa ++ ta) (sb ++ tb) sa.length 0 r s).1
      = (List.zipWith (· ^^^ ·) sa sb).foldl (· ||| ·) r
  | [], [], _, _, _, _, _ => rfl
  | [], _ :: _, h, _, _, _, _ => by simp at h
  | _ :: _, [], h, _, _, _, _ => by simp at h
  | x :: sa, y :: sb, h, ta, tb, r, s => by
    have hl : sa.length = sb.length := by simpa using h
    simp only [List.length_cons, List.cons_append, timing_safe_loop]
    rw [timing_safe_loop_shift, timing_safe_loop_value sa sb hl]
    simp

/-! ## timing_safe_strcmp: what it returns and how many steps it takes -/

/-- The instrumented comparison on two NUL-terminated strings whose lengths fit an `int`:
different lengths give `(1, 0)`; equal lengths give the OR of the XORs and as many
iterations as the strings are long. -/
theorem timing_safe_strcmp_steps_eq (a b : List Nat) (ha : 0 ∈ a) (hb : 0 ∈ b)
    (hla : (c_str a).length ≤ INT_MAX) (hlb : (c_str b).length ≤ INT_MAX) :
    timing_safe_strcmp_steps a b =
      if (c_str a).length ≠ (c_str b).length then .ret (1, 0)
      else .ret ((or_of_xors (c_str a) (c_str b) : Int), (c_str a).length) := by
  obtain ⟨ta, hta⟩ := c_str_decomp a ha
  obtain ⟨tb, htb⟩ := c_str_decomp b hb
  unfold timing_safe_strcmp_steps
  rw [c_strlen_of_mem a ha, c_strlen_of_mem b hb]
  simp only [size_to_int_of_le _ hla, size_to_int_of_le _ hlb, Int.toNat_ofNat]
  by_cases hl : (c_str a).length = (c_str b).length
  · have hv := timing_safe_loop_value (c_str a) (c_str b) hl (0 :: ta) (0 :: tb) 0 0
    have hs := timing_safe_loop_steps a b (c_str a).length 0 0 0
    rw [← hta, ← htb] at hv
    simp only [hl, ne_eq, not_true_eq_false, if_false, Nat.cast_inj]
    rw [← hl, hv, hs]
    simp [or_of_xors]
  · have hl' : ((c_str a).length : Int) ≠ ((c_str b).length : Int) := by
      intro e
      exact hl (by exact_mod_cast e)
    simp [hl, hl']

theorem timing_safe_strcmp_steps_of_strlen (a b : List Nat) (la lb : Nat)
    (ha : c_strlen a = some la) (hb : c_strlen b = some lb) :
    timing_safe_strcmp_steps a b =
      if size_to_int la ≠ size_to_int lb then .ret (1, 0)
      else .ret (((timing_safe_loop a b (size_to_int la).toNat 0 0 0).1 : Int),
        (timing_safe_loop a b (size_to_int la).toNat 0 0 0).2) := by
  unfold timing_safe_strcmp_steps
  rw [ha, hb]

/-- For every pair of NUL-terminated strings, of any length, the number of iterations of
the per-byte loop is `step_count` of the two lengths. -/
theorem timing_safe_strcmp_steps_general (a b : List Nat) (ha : 0 ∈ a) (hb : 0 ∈ b) :
    ∃ v, timing_safe_strcmp_steps a b
      = .ret (v, step_count (c_str a).length (c_str b).length) := by
  rw [timing_safe_strcmp_steps_of_strlen a b _ _ (c_strlen_of_mem a ha) (c_strlen_of_mem b hb)]
  unfold step_count
  by_cases h : size_to_int (c_str a).length = size_to_int (c_str b).length
  · rw [if_neg (not_not.2 h), if_neg (not_not.2 h), timing_safe_loop_steps, Nat.zero_add]
    exact ⟨_, rfl⟩
  · rw [if_pos h, if_pos h]
    exact ⟨1, rfl⟩

/-! ## Lemmas: the copy loop of my_str_to_c_str -/

theorem take_succ_set (l : List Nat) (i v : Nat) (h : i < l.length) :
    (l.set i v).take (i + 1) = l.take i ++ [v] := by
  rw [List.take_succ, List.getElem?_set_self h, List.set_take,
    List.set_eq_of_length_le (by simp)]
  rfl

/-- The copy loop on a source without zero byte in `[i, i + n)` and a destination with
room for the terminator: it returns 0 and the destination holds the copied bytes and
the terminator, the rest being unchanged. -/
theorem copy_loop_ok (src : Nat → Nat) : ∀ (n i : Nat) (dst : List Nat),
    (∀ j, i ≤ j → j < i + n → src j ≠ 0) → i + n < dst.length →
    copy_loop src n i dst
      = .ret (0, dst.take i ++ (List.range' i n).map src ++ 0 :: dst.drop (i + n + 1))
  | 0, i, dst, _, hlen => by
    have hi : i < dst.length := by omega
    simp [copy_loop, hi, List.set_eq_take_append_cons_drop]
  | n + 1, i, dst, hnz, hlen => by
    have hi : i < dst.length := by omega
    have h0 : src i ≠ 0 := hnz i (Nat.le_refl _) (by omega)
    have ih := copy_loop_ok src n (i + 1) (dst.set i (src i))
      (fun j hj1 hj2 => hnz j (by omega) (by omega)) (by simp; omega)
    rw [copy_loop, if_neg h0, if_pos hi, ih, take_succ_set _ _ _ hi,
      List.drop_set_of_lt _ _ (by omega), List.range'_succ]
    have e : i + 1 + n + 1 = i + (n + 1) + 1 := by omega
    simp [e]

/-- If the copy loop returns 0, the source has no zero byte in `[i, i + n)` and all stores
were inside the destination. -/
theorem copy_loop_ret_zero_inv (src : Nat → Nat) : ∀ (n i : Nat) (dst d' : List Nat),
    copy_loop src n i dst = .ret (0, d') →
    (∀ j, i ≤ j → j < i + n → src j ≠ 0) ∧ i + n < dst.length
  | 0, i, dst, d', h => by
    by_cases hi : i < dst.length
    · exact ⟨fun j h1 h2 => by omega, by omega⟩
    · simp [copy_loop, hi] at h
  | n + 1, i, dst, d', h => by
    by_cases h0 : src i = 0
    · simp [copy_loop, h0] at h
    · by_cases hi : i < dst.length
      · rw [copy_loop, if_neg h0, if_pos hi] at h
        obtain ⟨ih1, ih2⟩ := copy_loop_ret_zero_inv src n (i + 1) _ d' h
        rw [List.length_set] at ih2
        refine ⟨fun j hj1 hj2 => ?_, by omega⟩
        by_cases e : j = i
        · rw [e]; exact h0
        · exact ih1 j (by omega) (by omega)
      · simp [copy_loop, h0, hi] at h

/-- With all stores inside the destination, the copy loop returns, with -1 exactly when
the source has a zero byte in `[i, i + n)` and with 0 otherwise. -/
theorem copy_loop_in_bounds (src : Nat → Nat) : ∀ (n i : Nat) (dst : List Nat),
    i + n < dst.length →
    ∃ r d', copy_loop src n i dst = .ret (r, d') ∧ d'.length = dst.length ∧
      (r = -1 ↔ ∃ j, i ≤ j ∧ j < i + n ∧ src j = 0) ∧
      (r = 0 ↔ ¬ ∃ j, i ≤ j ∧ j < i + n ∧ src j = 0)
  | 0, i, dst, hlen => by
    have hi : i < dst.length := by omega
    refine ⟨0, dst.set i 0, by simp [copy_loop, hi], by simp, ?_, ?_⟩
    · constructor
      · intro h; exact absurd h (by decide)
      · rintro ⟨j, h1, h2, _⟩; omega
    · constructor
      · rintro - ⟨j, h1, h2, _⟩; omega
      · intro _; rfl
  | n + 1, i, dst, hlen => by
    have hi : i < dst.length := by omega
    by_cases h0 : src i = 0
    · refine ⟨-1, dst, by simp [copy_loop, h0], rfl, ?_, ?_⟩
      · exact ⟨fun _ => ⟨i, Nat.le_refl _, by omega, h0⟩, fun _ => rfl⟩
      · constructor
        · intro h; exact absurd h (by decide)
        · intro h; exact absurd ⟨i, Nat.le_refl _, by omega, h0⟩ h
    · obtain ⟨r, d', hr, hl, hm, hz⟩ := copy_loop_in_bounds src n (i + 1) (dst.set i (src i))
        (by simp; omega)
      have key : (∃ j, i + 1 ≤ j ∧ j < i + 1 + n ∧ src j = 0)
          ↔ ∃ j, i ≤ j ∧ j < i + (n + 1) ∧ src j = 0 := by
        constructor
        · rintro ⟨j, h1, h2, h3⟩; exact ⟨j, by omega, by omega, h3⟩
        · rintro ⟨j, h1, h2, h3⟩
          have : j ≠ i := fun e => h0 (e ▸ h3)
          exact ⟨j, by omega, by omega, h3⟩
      refine ⟨r, d', ?_, by simpa using hl, ?_, ?_⟩
      · rw [copy_loop, if_neg h0, if_pos hi, hr]
      · rw [hm, key]
      · rw [hz, key]

/-- When the declared length reaches past the destination and the source has no zero
byte up to the destination's capacity, the copy loop stores outside the destination. -/
theorem copy_loop_oob (src : Nat → Nat) : ∀ (n i : Nat) (dst : List Nat),
    i ≤ dst.length → dst.length ≤ i + n →
    (∀ j, i ≤ j → j ≤ dst.length → j < i + n → src j ≠ 0) →
    copy_loop src n i dst = .oob
  | 0, i, dst, h1, h2, _ => by
    have hi : ¬ i < dst.length := by omega
    simp [copy_loop, hi]
  | n + 1, i, dst, h1, h2, hnz => by
    have h0 : src i ≠ 0 := hnz i (Nat.le_refl _) h1 (by omega)
    by_cases hi : i < dst.length
    · rw [copy_loop, if_neg h0, if_pos hi]
      exact copy_loop_oob src n (i + 1) _ (by simp; omega) (by simp; omega)
        (fun j hj1 hj2 hj3 => hnz j (by omega) (by simpa using hj2) (by omega))
    · simp [copy_loop, h0, hi]

/-! ## Lemmas: my_str_to_c_str -/

theorem zero_not_mem_map_range (s : Nat → Nat) (n : Nat) (h : ∀ j, j < n → s j ≠ 0) :
    0 ∉ (List.range n).map s := by
  intro hm
  obtain ⟨j, hj, e⟩ := List.mem_map.1 hm
  exact h j (List.mem_range.1 hj) e

theorem c_str_copied (d : List Nat) (s : Nat → Nat) (n : Nat) (h : ∀ j, j < n → s j ≠ 0) :
    c_str (copied d s n) = (List.range n).map s :=
  c_str_append_zero _ _ (zero_not_mem_map_range s n h)

theorem c_strlen_copied (d : List Nat) (s : Nat → Nat) (n : Nat) (h : ∀ j, j < n → s j ≠ 0) :
    c_strlen (copied d s n) = some n := by
  unfold copied
  rw [c_strlen_append_zero _ _ (zero_not_mem_map_range s n h)]
  simp

theorem length_copied (d : List Nat) (s : Nat → Nat) (n : Nat) (h : n < d.length) :
    (copied d s n).length = d.length := by
  simp [copied]
  omega

theorem getElem?_copied_lt (d : List Nat) (s : Nat → Nat) (n i : Nat) (h : i < n) :
    (copied d s n)[i]? = some (s i) := by
  unfold copied
  rw [List.getElem?_append_left (by simpa using h)]
  simp [List.getElem?_range h]

theorem getElem?_copied_eq (d : List Nat) (s : Nat → Nat) (n : Nat) :
    (copied d s n)[n]? = some 0 := by
  unfold copied
  rw [List.getElem?_append_right (by simp)]
  simp

theorem getElem?_copied_gt (d : List Nat) (s : Nat → Nat) (n i : Nat) (h : n < i) :
    (copied d s n)[i]? = d[i]? := by
  unfold copied
  rw [List.getElem?_append_right (by simp; omega)]
  obtain ⟨k, rfl⟩ : ∃ k, i = n + 1 + k := ⟨i - (n + 1), by omega⟩
  have e : n + 1 + k - ((List.range n).map s).length = k + 1 := by simp; omega
  rw [e, List.getElem?_cons_succ, List.getElem?_drop]

/-- Success of `my_str_to_c_str`: present arguments, a length that passes the size check
and a source without zero byte below the declared length. -/
theorem my_str_to_c_str_ok (d : List Nat) (dst_sz : Nat) (s : Nat → Nat) (src_sz : Nat)
    (hsz : src_sz + 1 ≤ dst_sz) (hcap : dst_sz ≤ d.length) (hmod : src_sz + 1 < SIZE_MOD)
    (hnz : ∀ j, j < src_sz → s j ≠ 0) :
    my_str_to_c_str (some d) dst_sz (some s) src_sz = .ret (0, some (copied d s src_sz)) := by
  have hm : (src_sz + 1) % SIZE_MOD = src_sz + 1 := Nat.mod_eq_of_lt hmod
  have hc := copy_loop_ok s src_sz 0 d (fun j _ hj => hnz j (by omega)) (by omega)
  unfold my_str_to_c_str
  simp only [hm, gt_iff_lt, Nat.not_lt.2 hsz, if_false, hc]
  simp [copied, List.range_eq_range']

/-- If `my_str_to_c_str` returns 0, both pointers are present, the source has no zero byte
below the declared length, the terminator index lies inside the destination, and the
destination is `copied`. -/
theorem my_str_to_c_str_ret_zero_inv (dst : Option (List Nat)) (dst_sz : Nat)
    (src : Option (Nat → Nat)) (src_sz : Nat) (d' : Option (List Nat))
    (h : my_str_to_c_str dst dst_sz src src_sz = .ret (0, d')) :
    ∃ d s, dst = some d ∧ src = some s ∧ (∀ j, j < src_sz → s j ≠ 0) ∧
      src_sz < d.length ∧ d' = some (copied d s src_sz) := by
  cases dst with
  | none => simp [my_str_to_c_str] at h
  | some d =>
    cases src with
    | none => simp [my_str_to_c_str] at h
    | some s =>
      refine ⟨d, s, rfl, rfl, ?_⟩
      unfold my_str_to_c_str at h
      by_cases hc : (src_sz + 1) % SIZE_MOD > dst_sz
      · simp [hc] at h
      · simp only [hc, if_false] at h
        cases hl : copy_loop s src_sz 0 d with
        | oob => rw [hl] at h; cases h
        | spin => rw [hl] at h; cases h
        | ret p =>
          obtain ⟨r, d2⟩ := p
          rw [hl] at h
          simp only [Run.ret.injEq, Prod.mk.injEq] at h
          obtain ⟨hr, hd⟩ := h
          subst hr
          obtain ⟨hnz, hlen⟩ := copy_loop_ret_zero_inv s src_sz 0 d d2 hl
          have hnz' : ∀ j, j < src_sz → s j ≠ 0 := fun j hj => hnz j (Nat.zero_le _) (by omega)
          have hok := copy_loop_ok s src_sz 0 d hnz (by omega)
          rw [hl] at hok
          simp only [Run.ret.injEq, Prod.mk.injEq, true_and] at hok
          refine ⟨hnz', by omega, ?_⟩
          rw [← hd, hok]
          simp [copied, List.range_eq_range']

/-- An absent destination or an absent source makes `my_str_to_c_str` return -1. -/
theorem my_str_to_c_str_absent (dst : Option (List Nat)) (dst_sz : Nat)
    (src : Option (Nat → Nat)) (src_sz : Nat) (h : dst = none ∨ src = none) :
    my_str_to_c_str dst dst_sz src src_sz = .ret (-1, dst) := by
  rcases h with h | h
  · subst h; rfl
  · subst h; cases dst <;> rfl

/-- The return value of `my_str_to_c_str` for a declared length below `2 ^ 64 - 1` (so
that `src_sz + 1` does not wrap) and a destination at least as large as declared: -1
exactly when the length does not leave room for the terminator or the source has a zero
byte below the declared length, and 0 otherwise. -/
theorem my_str_to_c_str_ret_iff (d : List Nat) (dst_sz : Nat) (s : Nat → Nat) (src_sz : Nat)
    (hcap : dst_sz ≤ d.length) (hmod : src_sz + 1 < SIZE_MOD) :
    ∃ r d', my_str_to_c_str (some d) dst_sz (some s) src_sz = .ret (r, some d') ∧
      d'.length = d.length ∧
      (r = -1 ↔ (src_sz + 1 > dst_sz ∨ ∃ i, i < src_sz ∧ s i = 0)) ∧
      (r = 0 ↔ ¬ (src_sz + 1 > dst_sz ∨ ∃ i, i < src_sz ∧ s i = 0)) := by
  have hm : (src_sz + 1) % SIZE_MOD = src_sz + 1 := Nat.mod_eq_of_lt hmod
  unfold my_str_to_c_str
  by_cases hc : src_sz + 1 > dst_sz
  · refine ⟨-1, d, by simp [hm, hc], rfl, ?_, ?_⟩
    · exact ⟨fun _ => Or.inl hc, fun _ => rfl⟩
    · constructor
      · intro h; exact absurd h (by decide)
      · intro h; exact absurd (Or.inl hc) h
  · obtain ⟨r, d', hr, hl, hm1, hz⟩ := copy_loop_in_bounds s src_sz 0 d (by omega)
    have key : (∃ j, 0 ≤ j ∧ j < 0 + src_sz ∧ s j = 0)
        ↔ (src_sz + 1 > dst_sz ∨ ∃ i, i < src_sz ∧ s i = 0) := by
      constructor
      · rintro ⟨j, _, h2, h3⟩; exact Or.inr ⟨j, by omega, h3⟩
      · rintro (h | ⟨j, h2, h3⟩)
        · exact absurd h hc
        · exact ⟨j, Nat.zero_le _, by omega, h3⟩
    refine ⟨r, d', ?_, hl, ?_, ?_⟩
    · simp only [hm, hc, if_false, hr]
    · rw [hm1, key]
    · rw [hz, key]

/-- When the size check lets through a declared length that reaches past the destination
(which happens only when `src_sz + 1` wraps) and the source has no zero byte up to the
destination's capacity, `my_str_to_c_str` stores outside the destination. -/
theorem my_str_to_c_str_oob (d : List Nat) (dst_sz : Nat) (s : Nat → Nat) (src_sz : Nat)
    (hchk : ¬ (src_sz + 1) % SIZE_MOD > dst_sz) (hlen : d.length ≤ src_sz)
    (hnz : ∀ j, j ≤ d.length → s j ≠ 0) :
    my_str_to_c_str (some d) dst_sz (some s) src_sz = .oob := by
  have hc := copy_loop_oob s src_sz 0 d (Nat.zero_le _) (by omega)
    (fun j _ hj _ => hnz j hj)
  unfold my_str_to_c_str
  simp only [hchk, if_false, hc]

/-! ## Lemmas: the work factor -/

theorem resolve_workfactor_range (a : Option Int) :
    4 ≤ resolve_workfactor a ∧ resolve_workfactor a ≤ 16 := by
  unfold resolve_workfactor WORKFACTOR_MIN WORKFACTOR_MAX WORKFACTOR_DEFAULT
  cases a with
  | none => simp
  | some v =>
    simp only
    split
    · omega
    · split <;> omega

theorem length_uninit (junk : Nat → Nat) (n : Nat) : (uninit junk n).length = n := by
  simp [uninit]

theorem map_mem_of_range (p : List Nat) : (List.range p.length).map (mem_of p) = p := by
  apply List.ext_getElem?
  intro i
  by_cases hi : i < p.length
  · simp [List.getElem?_range hi, mem_of, List.getElem?_eq_getElem hi]
  · have h1 : p.length ≤ i := Nat.le_of_not_lt hi
    rw [List.getElem?_eq_none (by simpa using h1), List.getElem?_eq_none h1]

theorem mem_of_ne_zero (p : List Nat) (h : 0 ∉ p) (j : Nat) (hj : j < p.length) :
    mem_of p j ≠ 0 := by
  intro e
  apply h
  have : p[j] = 0 := by simpa [mem_of, List.getElem?_eq_getElem hj] using e
  rw [← this]
  exact List.getElem_mem _

theorem length_store (buf : List Nat) (off : Nat) (bs : List Nat)
    (h : off + bs.length ≤ buf.length) : (store buf off bs).length = buf.length := by
  simp [store]
  omega

/-- The destination array keeps its capacity through `try_read`. -/
theorem try_read_loop_length (read : Nat → Int → Nat → ReadResult) (fd : Int) (count : Nat) :
    ∀ (fuel k : Nat) (tr : List Sys) (out : List Nat) (total : Nat) (rv : Int)
      (out' : List Nat) (tr' : List Sys),
      try_read_loop read fd count fuel k tr out total = .ret (rv, out', tr') →
      out'.length = out.length
  | 0, k, tr, out, total, rv, out', tr', h => by
    unfold try_read_loop at h
    split at h
    · cases h
    · simp only [Run.ret.injEq, Prod.mk.injEq] at h
      rw [← h.2.1]
  | fuel + 1, k, tr, out, total, rv, out', tr', h => by
    unfold try_read_loop at h
    split at h
    · split at h
      · cases h
      · rename_i r k' _
        cases r with
        | data bs =>
          simp only at h
          split at h
          · simp only [Run.ret.injEq, Prod.mk.injEq] at h
            rw [← h.2.1]
          · split at h
            · rename_i hle
              rw [try_read_loop_length read fd count fuel _ _ _ _ rv out' tr' h,
                length_store _ _ _ hle]
            · cases h
        | eintr =>
          simp only [Run.ret.injEq, Prod.mk.injEq] at h
          rw [← h.2.1]
        | error =>
          simp only [Run.ret.injEq, Prod.mk.injEq] at h
          rw [← h.2.1]
    · simp only [Run.ret.injEq, Prod.mk.injEq] at h
      rw [← h.2.1]

theorem try_read_length (read : Nat → Int → Nat → ReadResult) (fuel : Nat) (fd : Int)
    (out : List Nat) (count : Nat) (rv : Int) (out' : List Nat) (tr' : List Sys)
    (h : try_read read fuel fd out count = .ret (rv, out', tr')) :
    out'.length = out.length :=
  try_read_loop_length read fd count fuel 0 [] out 0 rv out' tr' h

/-! ## Lemmas: the calls of the primitive -/

/-- A successful `crypt_rn` on two terminated arrays leaves the hash string and its
terminator in the output array. -/
theorem call_crypt_rn_some (P : Primitive) (key setting : List Nat) (size : Nat)
    (h : List Nat) (hk : 0 ∈ key) (hs : 0 ∈ setting)
    (hc : P.crypt_rn (c_str key) (c_str setting) size = some h) :
    call_crypt_rn P key setting size = .ret (some (h ++ [0])) := by
  unfold call_crypt_rn
  rw [c_strlen_of_mem key hk, c_strlen_of_mem setting hs]
  simp only [hc]

theorem call_crypt_rn_none (P : Primitive) (key setting : List Nat) (size : Nat)
    (hk : 0 ∈ key) (hs : 0 ∈ setting)
    (hc : P.crypt_rn (c_str key) (c_str setting) size = none) :
    call_crypt_rn P key setting size = .ret none := by
  unfold call_crypt_rn
  rw [c_strlen_of_mem key hk, c_strlen_of_mem setting hs]
  simp only [hc]

theorem zero_mem_copied (d : List Nat) (s : Nat → Nat) (n : Nat) : 0 ∈ copied d s n := by
  simp [copied]

theorem resolve_workfactor_toNat (a : Option Int) :
    (resolve_workfactor a % (SIZE_MOD : Int)).toNat = (resolve_workfactor a).toNat := by
  obtain ⟨h1, h2⟩ := resolve_workfactor_range a
  have hm : resolve_workfactor a % (SIZE_MOD : Int) = resolve_workfactor a :=
    Int.emod_eq_of_lt (by omega) (by unfold SIZE_MOD; norm_num; omega)
  rw [hm]

/-- The tail of `bcrypt_hash` when both primitive calls succeed. -/
theorem bcrypt_hash_crypt_some (P : Primitive) (pass randb : List Nat) (workfactor : Int)
    (len is_null : Nat) (sys : List Sys) (salt h : List Nat)
    (hpass : 0 ∈ pass) (hr : randb.length = RANDBYTES)
    (hsalt : P.crypt_gensalt_rn magic_2b (workfactor % (SIZE_MOD : Int)).toNat randb
      RANDBYTES BCRYPT_HASHSIZE = some salt)
    (hhash : P.crypt_rn (c_str pass) salt BCRYPT_HASHSIZE = some h) :
    bcrypt_hash_crypt P pass randb workfactor len is_null sys
      = .ret ⟨some (h ++ [0]), h.length, is_null, sys⟩ := by
  obtain ⟨_, hs0⟩ := P.gensalt_fits _ _ _ _ _ _ hsalt
  obtain ⟨hh1, hh0⟩ := P.crypt_fits _ _ _ _ hhash
  have htake : randb.take RANDBYTES = randb := by
    rw [← hr]; exact List.take_length _
  have hcs : c_str (salt ++ [0]) = salt := c_str_append_zero salt [] hs0
  have hcall : call_crypt_rn P pass (salt ++ [0]) BCRYPT_HASHSIZE = .ret (some (h ++ [0])) :=
    call_crypt_rn_some P pass (salt ++ [0]) BCRYPT_HASHSIZE h hpass (by simp)
      (by rw [hcs]; exact hhash)
  have hlen : c_strlen (h ++ [0]) = some h.length := c_strlen_append_zero h [] hh0
  have hmod : h.length % SIZE_MOD = h.length :=
    Nat.mod_eq_of_lt (by unfold BCRYPT_HASHSIZE at hh1; unfold SIZE_MOD; omega)
  unfold bcrypt_hash_crypt call_crypt_gensalt_rn
  rw [if_pos (by rw [hr]), htake]
  simp only [hsalt, hcall, hlen, hmod]

/-- The copy of the password made by `bcrypt_hash` and `bcrypt_check`, when the declared
length is at most 128 and the password has no zero byte. -/
theorem copy_pass_ok (junk : Nat → Nat) (s : Nat → Nat) (n : Nat) (hn : n ≤ PASS_MAXLEN)
    (hnz : ∀ j, j < n → s j ≠ 0) :
    my_str_to_c_str (some (uninit junk (PASS_MAXLEN + 1))) (PASS_MAXLEN + 1) (some s) n
      = .ret (0, some (copied (uninit junk (PASS_MAXLEN + 1)) s n)) :=
  my_str_to_c_str_ok _ _ s n (by omega) (by rw [length_uninit])
    (by unfold PASS_MAXLEN at hn; unfold SIZE_MOD; omega) hnz

/-- The copy of the stored hash made by `bcrypt_check`, when the declared length is at
most 63 and the hash has no zero byte. -/
theorem copy_hash_ok (junk : Nat → Nat) (s : Nat → Nat) (n : Nat) (hn : n < BCRYPT_HASHSIZE)
    (hnz : ∀ j, j < n → s j ≠ 0) :
    my_str_to_c_str (some (uninit junk BCRYPT_HASHSIZE)) BCRYPT_HASHSIZE (some s) n
      = .ret (0, some (copied (uninit junk BCRYPT_HASHSIZE) s n)) :=
  my_str_to_c_str_ok _ _ s n (by omega) (by rw [length_uninit])
    (by unfold BCRYPT_HASHSIZE at hn; unfold SIZE_MOD; omega) hnz

/-- The whole success path of `bcrypt_hash`. -/
theorem bcrypt_hash_ok (P : Primitive) (w : World) (fuel : Nat) (s : Nat → Nat) (n : Nat)
    (c : Option Int) (len is_null : Nat) (r : List Nat) (reads : List Sys) (nc : Nat)
    (salt h : List Nat)
    (hn : n ≤ PASS_MAXLEN) (hnz : ∀ j, j < n → s j ≠ 0)
    (hopen : 0 ≤ w.open_fd)
    (hread : try_read w.read fuel w.open_fd (uninit (w.junk 1) RANDBYTES) RANDBYTES
      = .ret (0, r, reads))
    (hclose : try_close w.close w.open_fd fuel 0 = .ret (0, nc))
    (hsalt : P.crypt_gensalt_rn magic_2b (resolve_workfactor c).toNat r RANDBYTES
      BCRYPT_HASHSIZE = some salt)
    (hhash : P.crypt_rn ((List.range n).map s) salt BCRYPT_HASHSIZE = some h) :
    bcrypt_hash P w fuel (some s) n c len is_null
      = .ret ⟨some (h ++ [0]), h.length, is_null,
          Sys.sys_open :: (reads ++ List.replicate nc (Sys.sys_close w.open_fd))⟩ := by
  have hr : r.length = RANDBYTES := by
    rw [try_read_length _ _ _ _ _ _ _ _ hread, length_uninit]
  have hcs : c_str (copied (uninit (w.junk 0) (PASS_MAXLEN + 1)) s n) = (List.range n).map s :=
    c_str_copied _ s n hnz
  have htail := bcrypt_hash_crypt_some P (copied (uninit (w.junk 0) (PASS_MAXLEN + 1)) s n) r
    (resolve_workfactor c) len is_null
    (Sys.sys_open :: (reads ++ List.replicate nc (Sys.sys_close w.open_fd))) salt h
    (zero_mem_copied _ _ _) hr (by rw [resolve_workfactor_toNat]; exact hsalt)
    (by rw [hcs]; exact hhash)
  unfold bcrypt_hash
  simp only [copy_pass_ok (w.junk 0) s n hn hnz, hread, hclose, Option.getD_some]
  rw [if_neg (by simp), if_neg (by omega), if_neg (by simp), if_neg (by simp)]
  exact htail

/-! ## Lemmas: rejection of bad arguments -/

/-- An argument with declared length below `2 ^ 64 - 1` that is too long for the array or
holds a zero byte below its declared length makes `my_str_to_c_str` return -1. -/
theorem my_str_to_c_str_reject (d : List Nat) (dst_sz : Nat) (s : Nat → Nat) (src_sz : Nat)
    (hcap : dst_sz ≤ d.length) (hmod : src_sz + 1 < SIZE_MOD)
    (hbad : src_sz + 1 > dst_sz ∨ ∃ i, i < src_sz ∧ s i = 0) :
    ∃ d', my_str_to_c_str (some d) dst_sz (some s) src_sz = .ret (-1, some d') := by
  obtain ⟨r, d', hr, _, hm, _⟩ := my_str_to_c_str_ret_iff d dst_sz s src_sz hcap hmod
  have : r = -1 := hm.2 hbad
  subst this
  exact ⟨d', hr⟩

/-- `bcrypt_hash` on a password with declared length below `2 ^ 64 - 1` that is longer
than 128 bytes or holds a zero byte below its declared length: NULL, `*is_null = 1`,
`*len` untouched, no system call. -/
theorem bcrypt_hash_reject (P : Primitive) (w : World) (fuel : Nat) (s : Nat → Nat)
    (n : Nat) (c : Option Int) (len is_null : Nat) (hmod : n + 1 < SIZE_MOD)
    (hbad : PASS_MAXLEN < n ∨ ∃ i, i < n ∧ s i = 0) :
    bcrypt_hash P w fuel (some s) n c len is_null = .ret ⟨none, len, 1, []⟩ := by
  obtain ⟨d', hd⟩ := my_str_to_c_str_reject (uninit (w.junk 0) (PASS_MAXLEN + 1))
    (PASS_MAXLEN + 1) s n (by rw [length_uninit]) hmod
    (by rcases hbad with h | h
        · exact Or.inl (by omega)
        · exact Or.inr h)
  unfold bcrypt_hash
  simp only [hd]
  rw [if_pos (by decide)]

/-- `bcrypt_check` on a password with declared length below `2 ^ 64 - 1` that is longer
than 128 bytes or holds a zero byte below its declared length: Error. -/
theorem bcrypt_check_reject_pass (P : Primitive) (junk : Nat → Nat → Nat) (s : Nat → Nat)
    (n : Nat) (args1 : Option (Nat → Nat)) (lengths1 is_null : Nat)
    (hmod : n + 1 < SIZE_MOD) (hbad : PASS_MAXLEN < n ∨ ∃ i, i < n ∧ s i = 0) :
    bcrypt_check P junk (some s) n args1 lengths1 is_null = .ret ⟨0, 1⟩ := by
  obtain ⟨d', hd⟩ := my_str_to_c_str_reject (uninit (junk 0) (PASS_MAXLEN + 1))
    (PASS_MAXLEN + 1) s n (by rw [length_uninit]) hmod
    (by rcases hbad with h | h
        · exact Or.inl (by omega)
        · exact Or.inr h)
  unfold bcrypt_check
  simp only [hd]
  rw [if_pos (by decide)]

/-- `bcrypt_check` on an acceptable password and a stored hash with declared length below
`2 ^ 64 - 1` that is longer than 63 bytes or holds a zero byte below its declared
length: Error. -/
theorem bcrypt_check_reject_hash (P : Primitive) (junk : Nat → Nat → Nat) (s : Nat → Nat)
    (n : Nat) (t : Nat → Nat) (m is_null : Nat)
    (hn : n ≤ PASS_MAXLEN) (hnz : ∀ j, j < n → s j ≠ 0)
    (hmod : m + 1 < SIZE_MOD) (hbad : BCRYPT_HASHSIZE ≤ m ∨ ∃ i, i < m ∧ t i = 0) :
    bcrypt_check P junk (some s) n (some t) m is_null = .ret ⟨0, 1⟩ := by
  obtain ⟨d', hd⟩ := my_str_to_c_str_reject (uninit (junk 1) BCRYPT_HASHSIZE)
    BCRYPT_HASHSIZE t m (by rw [length_uninit]) hmod
    (by rcases hbad with h | h
        · exact Or.inl (by omega)
        · exact Or.inr h)
  unfold bcrypt_check
  simp only [copy_pass_ok (junk 0) s n hn hnz, hd]
  rw [if_neg (by simp), if_pos (by decide)]

/-- A password of declared length `2 ^ 64 - 1` without zero byte in its first 130 bytes
makes the copy into `pass[129]` store outside the array. -/
theorem copy_pass_size_max_oob (junk : Nat → Nat) (s : Nat → Nat)
    (hnz : ∀ j, j ≤ PASS_MAXLEN + 1 → s j ≠ 0) :
    my_str_to_c_str (some (uninit junk (PASS_MAXLEN + 1))) (PASS_MAXLEN + 1) (some s)
      (2 ^ 64 - 1) = .oob :=
  my_str_to_c_str_oob _ _ s _ (by decide) (by rw [length_uninit]; decide)
    (fun j hj => hnz j (by rw [length_uninit] at hj; exact hj))

/-- A stored hash of declared length `2 ^ 64 - 1` without zero byte in its first 65 bytes
makes the copy into `hash[64]` store outside the array. -/
theorem copy_hash_size_max_oob (junk : Nat → Nat) (s : Nat → Nat)
    (hnz : ∀ j, j ≤ BCRYPT_HASHSIZE → s j ≠ 0) :
    my_str_to_c_str (some (uninit junk BCRYPT_HASHSIZE)) BCRYPT_HASHSIZE (some s)
      (2 ^ 64 - 1) = .oob :=
  my_str_to_c_str_oob _ _ s _ (by decide) (by rw [length_uninit]; decide)
    (fun j hj => hnz j (by rw [length_uninit] at hj; exact hj))

/-! ## Lemmas: the comparison inside bcrypt_check -/

/-- On NUL-terminated strings whose lengths fit an `int`, `timing_safe_strcmp` returns a
non-negative value that is zero exactly when the strings are equal. -/
theorem timing_safe_strcmp_nat (a b : List Nat) (ha : 0 ∈ a) (hb : 0 ∈ b)
    (hla : (c_str a).length ≤ INT_MAX) (hlb : (c_str b).length ≤ INT_MAX) :
    ∃ v : Nat, timing_safe_strcmp a b = .ret (v : Int) ∧ (v = 0 ↔ c_str a = c_str b) := by
  have hs := timing_safe_strcmp_steps_eq a b ha hb hla hlb
  unfold timing_safe_strcmp
  rw [hs]
  by_cases hl : (c_str a).length = (c_str b).length
  · rw [if_neg (not_not.2 hl)]
    exact ⟨or_of_xors (c_str a) (c_str b), rfl, or_of_xors_eq_zero_iff _ _ hl⟩
  · rw [if_pos hl]
    refine ⟨1, rfl, ?_⟩
    constructor
    · intro h; exact absurd h (by decide)
    · intro h; exact absurd (congrArg List.length h) hl

/-- The result of `bcrypt_check` once both copies and `crypt_rn` have succeeded: 1 when the
computed hash string is the stored hash string and 0 otherwise, `*is_null` untouched. -/
theorem bcrypt_check_eval (P : Primitive) (junk : Nat → Nat → Nat) (a0 : Nat → Nat)
    (l0 : Nat) (a1 : Nat → Nat) (l1 is_null : Nat) (pass' hash' h : List Nat)
    (h0 : my_str_to_c_str (some (uninit (junk 0) (PASS_MAXLEN + 1))) (PASS_MAXLEN + 1)
      (some a0) l0 = .ret (0, some pass'))
    (h1 : my_str_to_c_str (some (uninit (junk 1) BCRYPT_HASHSIZE)) BCRYPT_HASHSIZE
      (some a1) l1 = .ret (0, some hash'))
    (hc : P.crypt_rn (c_str pass') (c_str hash') BCRYPT_HASHSIZE = some h) :
    bcrypt_check P junk (some a0) l0 (some a1) l1 is_null
      = .ret ⟨if h = c_str hash' then 1 else 0, is_null⟩ := by
  obtain ⟨d0, s0, hd0, hs0, hnz0, hlen0, hp⟩ := my_str_to_c_str_ret_zero_inv _ _ _ _ _ h0
  obtain ⟨d1, s1, hd1, hs1, hnz1, hlen1, hh⟩ := my_str_to_c_str_ret_zero_inv _ _ _ _ _ h1
  simp only [Option.some.injEq] at hd0 hd1 hs0 hs1 hp hh
  subst hd0 hd1 hs0 hs1
  have hpm : 0 ∈ pass' := by rw [hp]; exact zero_mem_copied _ _ _
  have hhm : 0 ∈ hash' := by rw [hh]; exact zero_mem_copied _ _ _
  obtain ⟨hf1, hf0⟩ := P.crypt_fits _ _ _ _ hc
  have hcall := call_crypt_rn_some P pass' hash' BCRYPT_HASHSIZE h hpm hhm hc
  have hcs : c_str (h ++ [0]) = h := c_str_append_zero h [] hf0
  have hl1 : (c_str hash').length ≤ INT_MAX := by
    rw [hh, c_str_copied _ _ _ hnz1]
    rw [length_uninit] at hlen1
    unfold BCRYPT_HASHSIZE at hlen1
    unfold INT_MAX
    simp
    omega
  have hl2 : (c_str (h ++ [0])).length ≤ INT_MAX := by
    rw [hcs]
    unfold BCRYPT_HASHSIZE at hf1
    unfold INT_MAX
    omega
  obtain ⟨v, hv, hv0⟩ := timing_safe_strcmp_nat hash' (h ++ [0]) hhm (by simp) hl1 hl2
  rw [hcs] at hv0
  unfold bcrypt_check
  simp only [h0, h1, hcall, hv, Option.getD_some]
  rw [if_neg (by simp), if_neg (by simp)]
  by_cases e : h = c_str hash'
  · have hz : v = 0 := hv0.2 e.symm
    subst hz
    simp [e]
  · have hz : v ≠ 0 := fun hz => e (hv0.1 hz).symm
    have hz' : ¬ ((v : Int) = 0) := by exact_mod_cast hz
    have hpos : (v : Int) > 0 := by
      have : 0 < v := Nat.pos_of_ne_zero hz
      exact_mod_cast this
    rw [if_neg hz', if_pos hpos, if_neg e]

/-- When the password is accepted and the copy of the stored hash stores outside
`hash[64]`, so does `bcrypt_check`. -/
theorem bcrypt_check_hash_oob (P : Primitive) (junk : Nat → Nat → Nat) (s : Nat → Nat)
    (n : Nat) (t : Nat → Nat) (m is_null : Nat)
    (hn : n ≤ PASS_MAXLEN) (hnz : ∀ j, j < n → s j ≠ 0)
    (h1 : my_str_to_c_str (some (uninit (junk 1) BCRYPT_HASHSIZE)) BCRYPT_HASHSIZE (some t) m
      = .oob) :
    bcrypt_check P junk (some s) n (some t) m is_null = .oob := by
  unfold bcrypt_check
  simp only [copy_pass_ok (junk 0) s n hn hnz]
  rw [if_neg (by simp)]
  simp only [h1]

/-- If `bcrypt_check`, entered with `*is_null = 0`, returns with `*is_null = 1`, then it
returns 0 and a step before the comparison failed: the password is absent, or its copy
returned non-zero, or the stored hash is absent, or its copy returned non-zero, or
`crypt_rn` returned NULL. -/
theorem bcrypt_check_is_null_only_on_failure (P : Primitive) (junk : Nat → Nat → Nat)
    (args0 : Option (Nat → Nat)) (l0 : Nat) (args1 : Option (Nat → Nat)) (l1 : Nat) (v : Int)
    (h : bcrypt_check P junk args0 l0 args1 l1 0 = .ret ⟨v, 1⟩) :
    v = 0 ∧
    (args0 = none ∨
      (∃ r d, my_str_to_c_str (some (uninit (junk 0) (PASS_MAXLEN + 1))) (PASS_MAXLEN + 1)
        args0 l0 = .ret (r, d) ∧ r ≠ 0) ∨
      args1 = none ∨
      (∃ r d, my_str_to_c_str (some (uninit (junk 1) BCRYPT_HASHSIZE)) BCRYPT_HASHSIZE
        args1 l1 = .ret (r, d) ∧ r ≠ 0) ∨
      (∃ pass' hash',
        my_str_to_c_str (some (uninit (junk 0) (PASS_MAXLEN + 1))) (PASS_MAXLEN + 1)
          args0 l0 = .ret (0, some pass') ∧
        my_str_to_c_str (some (uninit (junk 1) BCRYPT_HASHSIZE)) BCRYPT_HASHSIZE
          args1 l1 = .ret (0, some hash') ∧
        P.crypt_rn (c_str pass') (c_str hash') BCRYPT_HASHSIZE = none)) := by
  cases args0 with
  | none =>
    simp only [bcrypt_check, Run.ret.injEq, CheckResult.mk.injEq] at h
    exact ⟨h.1.symm, Or.inl rfl⟩
  | some a0 =>
    cases hc0 : my_str_to_c_str (some (uninit (junk 0) (PASS_MAXLEN + 1))) (PASS_MAXLEN + 1)
        (some a0) l0 with
    | oob => simp [bcrypt_check, hc0] at h
    | spin => simp [bcrypt_check, hc0] at h
    | ret p0 =>
      obtain ⟨r0, d0⟩ := p0
      by_cases hr0 : r0 = 0
      · subst hr0
        obtain ⟨d, s, _, _, hnz0, _, hd0⟩ := my_str_to_c_str_ret_zero_inv _ _ _ _ _ hc0
        subst hd0
        cases args1 with
        | none =>
          simp only [bcrypt_check, hc0, ne_eq, not_true_eq_false, if_false, Run.ret.injEq,
            CheckResult.mk.injEq] at h
          exact ⟨h.1.symm, Or.inr (Or.inr (Or.inl rfl))⟩
        | some a1 =>
          cases hc1 : my_str_to_c_str (some (uninit (junk 1) BCRYPT_HASHSIZE)) BCRYPT_HASHSIZE
              (some a1) l1 with
          | oob => simp [bcrypt_check, hc0, hc1] at h
          | spin => simp [bcrypt_check, hc0, hc1] at h
          | ret p1 =>
            obtain ⟨r1, d1⟩ := p1
            by_cases hr1 : r1 = 0
            · subst hr1
              obtain ⟨d', s', _, _, hnz1, _, hd1⟩ := my_str_to_c_str_ret_zero_inv _ _ _ _ _ hc1
              subst hd1
              cases hcr : P.crypt_rn (c_str (copied d s l0)) (c_str (copied d' s' l1))
                  BCRYPT_HASHSIZE with
              | none =>
                have hcall := call_crypt_rn_none P _ _ BCRYPT_HASHSIZE
                  (zero_mem_copied d s l0) (zero_mem_copied d' s' l1) hcr
                simp only [bcrypt_check, hc0, hc1, hcall, ne_eq, not_true_eq_false, if_false,
                  Option.getD_some, Run.ret.injEq, CheckResult.mk.injEq] at h
                exact ⟨h.1.symm, Or.inr (Or.inr (Or.inr (Or.inr ⟨_, _, rfl, rfl, hcr⟩)))⟩
              | some hh =>
                have he := bcrypt_check_eval P junk a0 l0 a1 l1 0 _ _ hh hc0 hc1 hcr
                rw [he] at h
                simp only [Run.ret.injEq, CheckResult.mk.injEq] at h
                exact absurd h.2 (by decide)
            · simp only [bcrypt_check, hc0, hc1, ne_eq, not_true_eq_false, if_false, hr1,
                not_false_eq_true, if_true, Run.ret.injEq, CheckResult.mk.injEq] at h
              exact ⟨h.1.symm, Or.inr (Or.inr (Or.inr (Or.inl ⟨r1, d1, rfl, hr1⟩)))⟩
      · simp only [bcrypt_check, hc0, ne_eq, hr0, not_false_eq_true, if_true, Run.ret.injEq,
          CheckResult.mk.injEq] at h
        exact ⟨h.1.symm, Or.inr (Or.inl ⟨r0, d0, rfl, hr0⟩)⟩

/-- `bcrypt_check` on an acceptable password and on a stored hash `h` that the primitive
recomputes from itself for this password returns 1, `*is_null` untouched. -/
theorem bcrypt_check_match (P : Primitive) (junk : Nat → Nat → Nat) (s : Nat → Nat) (n : Nat)
    (h : List Nat) (is_null : Nat)
    (hn : n ≤ PASS_MAXLEN) (hnz : ∀ j, j < n → s j ≠ 0)
    (hh1 : h.length < BCRYPT_HASHSIZE) (hh0 : 0 ∉ h)
    (hre : P.crypt_rn ((List.range n).map s) h BCRYPT_HASHSIZE = some h) :
    bcrypt_check P junk (some s) n (some (mem_of h)) h.length is_null = .ret ⟨1, is_null⟩ := by
  have hsrc : ∀ j, j < h.length → mem_of h j ≠ 0 := mem_of_ne_zero h hh0
  have h0 := copy_pass_ok (junk 0) s n hn hnz
  have h1 := copy_hash_ok (junk 1) (mem_of h) h.length hh1 hsrc
  have hcp : c_str (copied (uninit (junk 0) (PASS_MAXLEN + 1)) s n) = (List.range n).map s :=
    c_str_copied _ s n hnz
  have hch : c_str (copied (uninit (junk 1) BCRYPT_HASHSIZE) (mem_of h) h.length) = h := by
    rw [c_str_copied _ _ _ hsrc, map_mem_of_range]
  have he := bcrypt_check_eval P junk s n (mem_of h) h.length is_null _ _ h h0 h1
    (by rw [hcp, hch]; exact hre)
  rw [he, hch, if_pos rfl]

/-! ## Lemmas: the range of the comparison result -/

theorem getD_lt_256 (l : List Nat) (h : ∀ x ∈ l, x < 256) (i : Nat) : l.getD i 0 < 256 := by
  by_cases hi : i < l.length
  · rw [List.getD_eq_getElem _ _ hi]
    exact h _ (List.getElem_mem _)
  · rw [List.getD_eq_default _ _ (Nat.le_of_not_lt hi)]
    decide

/-- On arrays of bytes the accumulator of the comparison loop stays below 256. -/
theorem timing_safe_loop_lt_256 (u1 u2 : List Nat) (h1 : ∀ x ∈ u1, x < 256)
    (h2 : ∀ x ∈ u2, x < 256) : ∀ (n i r s : Nat), r < 256 →
    (timing_safe_loop u1 u2 n i r s).1 < 256
  | 0, _, _, _, hr => hr
  | n + 1, i, r, s, hr => by
    rw [timing_safe_loop]
    apply timing_safe_loop_lt_256 u1 u2 h1 h2 n
    have e : (256 : Nat) = 2 ^ 8 := by decide
    rw [e] at hr ⊢
    exact Nat.or_lt_two_pow hr
      (Nat.xor_lt_two_pow (by rw [← e]; exact getD_lt_256 u1 h1 i)
        (by rw [← e]; exact getD_lt_256 u2 h2 i))

/-- On NUL-terminated strings of any length `timing_safe_strcmp` returns, and what it
returns is a natural number. -/
theorem timing_safe_strcmp_nonneg (a b : List Nat) (ha : 0 ∈ a) (hb : 0 ∈ b) :
    ∃ v : Nat, timing_safe_strcmp a b = .ret (v : Int) ∧
      (v = 1 ∨ v = (timing_safe_loop a b
        (size_to_int (c_str a).length).toNat 0 0 0).1) := by
  have hs := timing_safe_strcmp_steps_of_strlen a b _ _ (c_strlen_of_mem a ha)
    (c_strlen_of_mem b hb)
  unfold timing_safe_strcmp
  rw [hs]
  by_cases h : size_to_int (c_str a).length = size_to_int (c_str b).length
  · rw [if_neg (not_not.2 h)]
    exact ⟨_, rfl, Or.inr rfl⟩
  · rw [if_pos h]
    exact ⟨1, rfl, Or.inl rfl⟩

/-! ## Lemmas: the destination after a failed copy -/

/-- If the copy loop returns -1, it stopped at the first zero byte `k` of the source in
`[i, i + n)`, having stored `src[i..k)` at `dst[i..k)` and nothing else. -/
theorem copy_loop_ret_neg_inv (src : Nat → Nat) : ∀ (n i : Nat) (dst d' : List Nat),
    i ≤ dst.length → copy_loop src n i dst = .ret (-1, d') →
    ∃ k, i ≤ k ∧ k < i + n ∧ src k = 0 ∧ (∀ j, i ≤ j → j < k → src j ≠ 0) ∧
      d'.length = dst.length ∧ k ≤ dst.length ∧
      (∀ j, i ≤ j → j < k → d'[j]? = some (src j)) ∧
      (∀ j, (j < i ∨ k ≤ j) → d'[j]? = dst[j]?)
  | 0, i, dst, d', _, h => by
    by_cases hi : i < dst.length
    · simp [copy_loop, hi] at h
    · simp [copy_loop, hi] at h
  | n + 1, i, dst, d', hle, h => by
    by_cases h0 : src i = 0
    · simp only [copy_loop, h0, if_true, Run.ret.injEq, Prod.mk.injEq, true_and] at h
      rw [← h]
      exact ⟨i, Nat.le_refl _, by omega, h0, fun j h1 h2 => by omega, rfl, hle,
        fun j h1 h2 => by omega, fun _ _ => rfl⟩
    · by_cases hi : i < dst.length
      · rw [copy_loop, if_neg h0, if_pos hi] at h
        obtain ⟨k, hk1, hk2, hk3, hk4, hl, hkl, hc, hu⟩ :=
          copy_loop_ret_neg_inv src n (i + 1) _ d' (by rw [List.length_set]; omega) h
        rw [List.length_set] at hl hkl
        refine ⟨k, by omega, by omega, hk3, ?_, hl, hkl, ?_, ?_⟩
        · intro j hj1 hj2
          by_cases e : j = i
          · rw [e]; exact h0
          · exact hk4 j (by omega) hj2
        · intro j hj1 hj2
          by_cases e : j = i
          · rw [e, hu i (Or.inl (by omega)), List.getElem?_set_self hi]
          · exact hc j (by omega) hj2
        · intro j hj
          rw [hu j (by omega), List.getElem?_set_ne (by omega)]
      · simp [copy_loop, h0, hi] at h

/-- For a declared length below `2 ^ 64 - 1` the copy never stores outside the
destination, and a destination it accepts holds a terminator within its capacity. -/
theorem my_str_to_c_str_in_bounds (d : List Nat) (dst_sz : Nat) (s : Nat → Nat) (src_sz : Nat)
    (hcap : dst_sz ≤ d.length) (hmod : src_sz + 1 < SIZE_MOD) :
    my_str_to_c_str (some d) dst_sz (some s) src_sz ≠ .oob ∧
    (∀ d', my_str_to_c_str (some d) dst_sz (some s) src_sz = .ret (0, some d') →
      0 ∈ d' ∧ d'.length = d.length ∧ c_strlen d' = some src_sz) := by
  obtain ⟨r, d2, hr, _, _, _⟩ := my_str_to_c_str_ret_iff d dst_sz s src_sz hcap hmod
  refine ⟨?_, ?_⟩
  · rw [hr]
    intro h
    cases h
  intro d' h
  obtain ⟨d0, s0, hd0, hs0, hnz, hlen, hout⟩ := my_str_to_c_str_ret_zero_inv _ _ _ _ _ h
  simp only [Option.some.injEq] at hd0 hs0 hout
  subst hd0 hs0 hout
  exact ⟨zero_mem_copied _ _ _, length_copied _ _ _ hlen, c_strlen_copied _ _ _ hnz⟩

/-! ## Lemmas: try_close and the system calls of bcrypt_hash -/

/-- What a returning `try_close` has done: every `close` call but the last reported
`EINTR`, the last one did not, and the return value is that of the last call. -/
theorem try_close_spec (close : Nat → Int → CloseResult) (fd : Int) :
    ∀ (fuel k : Nat) (rv : Int) (n : Nat), try_close close fd fuel k = .ret (rv, n) →
      k < n ∧ (∀ j, k ≤ j → j + 1 < n → close j fd = .eintr) ∧
      ((rv = 0 ∧ close (n - 1) fd = .ok) ∨ (rv = -1 ∧ close (n - 1) fd = .error))
  | 0, k, rv, n, h => by simp [try_close] at h
  | fuel + 1, k, rv, n, h => by
    unfold try_close at h
    cases hc : close k fd with
    | eintr =>
      rw [hc] at h
      obtain ⟨h1, h2, h3⟩ := try_close_spec close fd fuel (k + 1) rv n h
      refine ⟨by omega, ?_, h3⟩
      intro j hj1 hj2
      by_cases e : j = k
      · rw [e]; exact hc
      · exact h2 j (by omega) hj2
    | ok =>
      rw [hc] at h
      simp only [Run.ret.injEq, Prod.mk.injEq] at h
      obtain ⟨h1, h2⟩ := h
      subst h1 h2
      exact ⟨by omega, fun j hj1 hj2 => by omega, Or.inl ⟨rfl, by simpa using hc⟩⟩
    | error =>
      rw [hc] at h
      simp only [Run.ret.injEq, Prod.mk.injEq] at h
      obtain ⟨h1, h2⟩ := h
      subst h1 h2
      exact ⟨by omega, fun j hj1 hj2 => by omega, Or.inr ⟨rfl, by simpa using hc⟩⟩

/-- The list of calls returned by `try_read` holds `read` calls on the descriptor only. -/
theorem try_read_loop_trace (read : Nat → Int → Nat → ReadResult) (fd : Int) (count : Nat) :
    ∀ (fuel k : Nat) (tr : List Sys) (out : List Nat) (total : Nat) (rv : Int)
      (out' : List Nat) (tr' : List Sys),
      (∀ e ∈ tr, ∃ off n, e = Sys.sys_read fd off n) →
      try_read_loop read fd count fuel k tr out total = .ret (rv, out', tr') →
      ∀ e ∈ tr', ∃ off n, e = Sys.sys_read fd off n
  | 0, k, tr, out, total, rv, out', tr', htr, h => by
    unfold try_read_loop at h
    split at h
    · cases h
    · simp only [Run.ret.injEq, Prod.mk.injEq] at h
      rw [← h.2.2]; exact htr
  | fuel + 1, k, tr, out, total, rv, out', tr', htr, h => by
    unfold try_read_loop at h
    split at h
    · split at h
      · cases h
      · rename_i r k' _
        have htr2 : ∀ e ∈ tr ++ List.replicate (k' - k) (Sys.sys_read fd total (count - total)),
            ∃ off n, e = Sys.sys_read fd off n := by
          intro e he
          rcases List.mem_append.1 he with h1 | h1
          · exact htr e h1
          · exact ⟨_, _, List.eq_of_mem_replicate h1⟩
        cases r with
        | data bs =>
          simp only at h
          split at h
          · simp only [Run.ret.injEq, Prod.mk.injEq] at h
            rw [← h.2.2]; exact htr2
          · split at h
            · exact try_read_loop_trace read fd count fuel _ _ _ _ rv out' tr' htr2 h
            · cases h
        | eintr =>
          simp only [Run.ret.injEq, Prod.mk.injEq] at h
          rw [← h.2.2]; exact htr2
        | error =>
          simp only [Run.ret.injEq, Prod.mk.injEq] at h
          rw [← h.2.2]; exact htr2
    · simp only [Run.ret.injEq, Prod.mk.injEq] at h
      rw [← h.2.2]; exact htr

/-- The system calls of a returning `bcrypt_hash`: none when `open` is not reached; `open`
alone when it fails; otherwise `open`, the `read` calls of `try_read`, and the `close`
calls of the one `try_close`. -/
theorem bcrypt_hash_sys (P : Primitive) (w : World) (fuel : Nat) (args0 : Option (Nat → Nat))
    (lengths0 : Nat) (args1 : Option Int) (len is_null : Nat) (out : HashResult)
    (h : bcrypt_hash P w fuel args0 lengths0 args1 len is_null = .ret out) :
    out.sys = [] ∨ (w.open_fd < 0 ∧ out.sys = [Sys.sys_open]) ∨
    (0 ≤ w.open_fd ∧ ∃ rd randb reads cl nc,
      try_read w.read fuel w.open_fd (uninit (w.junk 1) RANDBYTES) RANDBYTES
        = .ret (rd, randb, reads) ∧
      try_close w.close w.open_fd fuel 0 = .ret (cl, nc) ∧
      out.sys = Sys.sys_open :: (reads ++ List.replicate nc (Sys.sys_close w.open_fd))) := by
  unfold bcrypt_hash at h
  split at h
  · simp only [Run.ret.injEq] at h
    left; rw [← h]
  · split at h
    · cases h
    · cases h
    · split at h
      · simp only [Run.ret.injEq] at h
        left; rw [← h]
      · simp only at h
        split at h
        · rename_i hfd
          simp only [Run.ret.injEq] at h
          right; left
          exact ⟨hfd, by rw [← h]⟩
        · rename_i hfd
          right; right
          refine ⟨Int.not_lt.1 hfd, ?_⟩
          split at h
          · cases h
          · cases h
          · rename_i rd randb reads hread
            split at h
            · split at h
              · cases h
              · cases h
              · rename_i cl nc hclose
                simp only [Run.ret.injEq] at h
                exact ⟨rd, randb, reads, cl, nc, hread, hclose, by rw [← h]⟩
            · split at h
              · cases h
              · cases h
              · rename_i cl nc hclose
                refine ⟨rd, randb, reads, cl, nc, hread, hclose, ?_⟩
                split at h
                · simp only [Run.ret.injEq] at h
                  rw [← h]
                · unfold bcrypt_hash_crypt at h
                  split at h
                  · cases h
                  · cases h
                  · simp only [Run.ret.injEq] at h
                    rw [← h]
                  · split at h
                    · cases h
                    · cases h
                    · simp only [Run.ret.injEq] at h
                      rw [← h]
                    · split at h
                      · cases h
                      · simp only [Run.ret.injEq] at h
                        rw [← h]

/-! ## Lemmas: the results and the calls of try_read -/

theorem results_of_append (read : Nat → Int → Nat → ReadResult) :
    ∀ (a b : List Sys) (k : Nat), (∀ e ∈ a, ∃ fd off n, e = Sys.sys_read fd off n) →
      results_of read k (a ++ b) = results_of read k a ++ results_of read (k + a.length) b
  | [], b, k, _ => by simp [results_of]
  | e :: a, b, k, h => by
    obtain ⟨fd, off, n, he⟩ := h e (List.mem_cons_self _ _)
    subst he
    have ih := results_of_append read a b (k + 1) (fun e he => h e (List.mem_cons_of_mem _ he))
    have e1 : k + 1 + a.length = k + (a.length + 1) := by omega
    rw [List.cons_append, results_of, ih, results_of, List.length_cons, e1, List.cons_append]

theorem results_of_replicate (read : Nat → Int → Nat → ReadResult) (fd : Int) (t n : Nat) :
    ∀ (m k : Nat), (∀ j, k ≤ j → j < k + m → read j fd n = ReadResult.eintr) →
      results_of read k (List.replicate m (Sys.sys_read fd t n))
        = List.replicate m ReadResult.eintr
  | 0, _, _ => rfl
  | m + 1, k, h => by
    have ih := results_of_replicate read fd t n m (k + 1)
      (fun j h1 h2 => h j (by omega) (by omega))
    simp only [List.replicate_succ, results_of, ih, h k (Nat.le_refl _) (by omega)]

theorem delivered_append : ∀ (a b : List ReadResult),
    delivered (a ++ b) = delivered a ++ delivered b
  | [], b => rfl
  | ReadResult.data bs :: a, b => by
    rw [List.cons_append, delivered, delivered_append a b, delivered, List.append_assoc]
  | ReadResult.eintr :: a, b => by
    rw [List.cons_append, delivered, delivered_append a b, delivered]
  | ReadResult.error :: a, b => by
    rw [List.cons_append, delivered, delivered_append a b, delivered]

theorem delivered_replicate_eintr : ∀ (m : Nat),
    delivered (List.replicate m ReadResult.eintr) = []
  | 0 => rfl
  | m + 1 => by simp only [List.replicate_succ, delivered, delivered_replicate_eintr m]

theorem read_calls_append (fd : Int) (count : Nat) : ∀ (a b : List ReadResult) (t : Nat),
    read_calls fd count t (a ++ b)
      = read_calls fd count t a ++ read_calls fd count (t + (delivered a).length) b
  | [], b, t => by simp [read_calls, delivered]
  | ReadResult.data bs :: a, b, t => by
    rw [List.cons_append, read_calls, read_calls_append fd count a b, read_calls, delivered,
      List.length_append, Nat.add_assoc, List.cons_append]
  | ReadResult.eintr :: a, b, t => by
    rw [List.cons_append, read_calls, read_calls_append fd count a b, read_calls, delivered,
      List.cons_append]
  | ReadResult.error :: a, b, t => by
    rw [List.cons_append, read_calls, read_calls_append fd count a b, read_calls, delivered,
      List.cons_append]

theorem read_calls_replicate_eintr (fd : Int) (count t : Nat) : ∀ (m : Nat),
    read_calls fd count t (List.replicate m ReadResult.eintr)
      = List.replicate m (Sys.sys_read fd t (count - t))
  | 0 => rfl
  | m + 1 => by
    simp only [List.replicate_succ, read_calls, read_calls_replicate_eintr fd count t m]

/-- What a returning inner loop of `try_read` has done: every `read` call but the last
reported `EINTR`; the last one gave the result, which is not `EINTR`. -/
theorem read_retry_spec (read : Nat → Int → Nat → ReadResult) (fd : Int) (n : Nat) :
    ∀ (fuel k : Nat) (r : ReadResult) (k' : Nat), read_retry read fd n fuel k = some (r, k') →
      k < k' ∧ (∀ j, k ≤ j → j + 1 < k' → read j fd n = ReadResult.eintr) ∧
      read (k' - 1) fd n = r ∧ r ≠ ReadResult.eintr
  | 0, k, r, k', h => by simp [read_retry] at h
  | fuel + 1, k, r, k', h => by
    unfold read_retry at h
    cases hc : read k fd n with
    | eintr =>
      rw [hc] at h
      obtain ⟨h1, h2, h3, h4⟩ := read_retry_spec read fd n fuel (k + 1) r k' h
      refine ⟨by omega, ?_, h3, h4⟩
      intro j hj1 hj2
      by_cases e : j = k
      · rw [e]; exact hc
      · exact h2 j (by omega) hj2
    | data bs =>
      rw [hc] at h
      simp only [Option.some.injEq, Prod.mk.injEq] at h
      obtain ⟨h1, h2⟩ := h
      subst h1 h2
      exact ⟨by omega, fun j hj1 hj2 => by omega, by simpa using hc, fun e => by cases e⟩
    | error =>
      rw [hc] at h
      simp only [Option.some.injEq, Prod.mk.injEq] at h
      obtain ⟨h1, h2⟩ := h
      subst h1 h2
      exact ⟨by omega, fun j hj1 hj2 => by omega, by simpa using hc, fun e => by cases e⟩

/-- The calls of one returning inner loop and their results. -/
theorem read_retry_results (read : Nat → Int → Nat → ReadResult) (fd : Int) (n t : Nat)
    (fuel k : Nat) (r : ReadResult) (k' : Nat)
    (h : read_retry read fd n fuel k = some (r, k')) :
    results_of read k (List.replicate (k' - k) (Sys.sys_read fd t n))
      = List.replicate (k' - k - 1) ReadResult.eintr ++ [r] := by
  obtain ⟨h1, h2, h3, _⟩ := read_retry_spec read fd n fuel k r k' h
  obtain ⟨m, hm⟩ : ∃ m, k' - k = m + 1 := ⟨k' - k - 1, by omega⟩
  have e1 : List.replicate (m + 1) (Sys.sys_read fd t n)
      = List.replicate m (Sys.sys_read fd t n) ++ [Sys.sys_read fd t n] := by
    rw [List.replicate_succ']
  have e2 : k' - k - 1 = m := by omega
  rw [e2, hm, e1, results_of_append read _ _ k
    (fun e he => ⟨fd, t, n, List.eq_of_mem_replicate he⟩),
    results_of_replicate read fd t n m k (fun j hj1 hj2 => h2 j hj1 (by omega))]
  have e3 : k + (List.replicate m (Sys.sys_read fd t n)).length = k' - 1 := by
    rw [List.length_replicate]; omega
  rw [e3, results_of, results_of, h3]

theorem store_nil (out : List Nat) (t : Nat) : store out t [] = out := by
  simp [store]

theorem store_store (out : List Nat) (t : Nat) (bs d : List Nat)
    (h : t + bs.length ≤ out.length) :
    store (store out t bs) (t + bs.length) d = store out t (bs ++ d) := by
  have hl : (out.take t ++ bs).length = t + bs.length := by
    rw [List.length_append, List.length_take, Nat.min_eq_left (by omega)]
  unfold store
  rw [List.take_left' hl, ← List.drop_drop, List.drop_left' hl, List.drop_drop,
    List.length_append]
  simp only [List.append_assoc, Nat.add_assoc]

theorem take_store_zero (out d : List Nat) : (store out 0 d).take d.length = d := by
  simp [store]

theorem drop_store_zero (out d : List Nat) (count : Nat) (h1 : d.length ≤ count) :
    (store out 0 d).drop count = out.drop count := by
  obtain ⟨c, rfl⟩ : ∃ c, count = d.length + c := ⟨count - d.length, by omega⟩
  simp only [store, List.take_zero, List.nil_append, Nat.zero_add]
  rw [← List.drop_drop, List.drop_left, List.drop_drop]

theorem goes_on_of_mem_replicate_eintr (m : Nat) (r : ReadResult)
    (h : r ∈ List.replicate m ReadResult.eintr) : goes_on r :=
  Or.inl (List.eq_of_mem_replicate h)

theorem last_of_concat_eq (a b : List ReadResult) (x y : ReadResult)
    (h : a ++ [x] = b ++ [y]) : x = y := by
  have := congrArg List.getLast? h
  simpa using this

/-- The run of a returning `try_read` loop in terms of the results of its `read` calls,
for a `read` that returns at most the number of bytes asked for. -/
theorem try_read_loop_spec (read : Nat → Int → Nat → ReadResult) (fd : Int) (count : Nat)
    (hwb : ∀ k n bs, read k fd n = ReadResult.data bs → bs.length ≤ n) :
    ∀ (fuel k : Nat) (tr : List Sys) (out : List Nat) (total : Nat) (rv : Int)
      (out' : List Nat) (tr' : List Sys),
      total ≤ count → count ≤ out.length →
      try_read_loop read fd count fuel k tr out total = .ret (rv, out', tr') →
      ∃ new, tr' = tr ++ new ∧
        (∀ e ∈ new, ∃ off n, e = Sys.sys_read fd off n) ∧
        new = read_calls fd count total (results_of read k new) ∧
        out' = store out total (delivered (results_of read k new)) ∧
        total + (delivered (results_of read k new)).length ≤ count ∧
        ((rv = 0 ∧ total + (delivered (results_of read k new)).length = count ∧
            ∀ r ∈ results_of read k new, goes_on r) ∨
          (rv = -1 ∧ total + (delivered (results_of read k new)).length < count ∧
            ∃ init last, results_of read k new = init ++ [last] ∧
              (∀ r ∈ init, goes_on r) ∧ gives_up last)) ∧
        (∀ init last, results_of read k new = init ++ [last] → last ≠ ReadResult.eintr)
  | 0, k, tr, out, total, rv, out', tr', hle, hcap, h => by
    unfold try_read_loop at h
    split at h
    · cases h
    · rename_i hlt
      simp only [Run.ret.injEq, Prod.mk.injEq] at h
      obtain ⟨h1, h2, h3⟩ := h
      subst h1 h2 h3
      refine ⟨[], by simp, by simp, rfl, ?_, ?_, Or.inl ⟨rfl, ?_, ?_⟩, ?_⟩
      · simp [results_of, delivered, store_nil]
      · simp [results_of, delivered]; exact hle
      · simp [results_of, delivered]; omega
      · simp [results_of]
      · intro init last hh
        simp [results_of] at hh
  | fuel + 1, k, tr, out, total, rv, out', tr', hle, hcap, h => by
    unfold try_read_loop at h
    split at h
    · rename_i hlt
      split at h
      · cases h
      · rename_i r k' hrr
        obtain ⟨hk, heintr, hlast, hne⟩ := read_retry_spec read fd _ _ _ _ _ hrr
        have hres := read_retry_results read fd (count - total) total _ _ _ _ hrr
        obtain ⟨m, hm⟩ : ∃ m, k' - k = m + 1 := ⟨k' - k - 1, by omega⟩
        have hm1 : k' - k - 1 = m := by omega
        rw [hm1] at hres
        have hk' : k + (m + 1) = k' := by omega
        have hallread : ∀ e ∈ List.replicate (k' - k) (Sys.sys_read fd total (count - total)),
            ∃ fd' off n, e = Sys.sys_read fd' off n :=
          fun e he => ⟨_, _, _, List.eq_of_mem_replicate he⟩
        cases r with
        | eintr => exact absurd rfl hne
        | error =>
          simp only [Run.ret.injEq, Prod.mk.injEq] at h
          obtain ⟨h1, h2, h3⟩ := h
          subst h1 h2 h3
          refine ⟨_, rfl, fun e he => ⟨_, _, List.eq_of_mem_replicate he⟩, ?_, ?_, ?_,
            Or.inr ⟨rfl, ?_, _, _, hres, goes_on_of_mem_replicate_eintr m, Or.inr rfl⟩, ?_⟩
          · rw [hres, read_calls_append, read_calls_replicate_eintr, read_calls, read_calls,
              hm, List.replicate_succ', delivered_replicate_eintr]
            rfl
          · rw [hres, delivered_append, delivered_replicate_eintr, delivered, delivered,
              List.nil_append, store_nil]
          · rw [hres, delivered_append, delivered_replicate_eintr, delivered, delivered]
            simpa using hle
          · rw [hres, delivered_append, delivered_replicate_eintr, delivered, delivered]
            simpa using hlt
          · intro init last hh
            rw [hres] at hh
            rw [← last_of_concat_eq _ _ _ _ hh]
            exact fun e => by cases e
        | data bs =>
          simp only at h
          split at h
          · rename_i hbs
            have hnil : bs = [] := List.length_eq_zero.1 (by omega)
            subst hnil
            simp only [Run.ret.injEq, Prod.mk.injEq] at h
            obtain ⟨h1, h2, h3⟩ := h
            subst h1 h2 h3
            refine ⟨_, rfl, fun e he => ⟨_, _, List.eq_of_mem_replicate he⟩, ?_, ?_, ?_,
              Or.inr ⟨rfl, ?_, _, _, hres, goes_on_of_mem_replicate_eintr m, Or.inl rfl⟩, ?_⟩
            · rw [hres, read_calls_append, read_calls_replicate_eintr, read_calls, read_calls,
                hm, List.replicate_succ', delivered_replicate_eintr]
              rfl
            · rw [hres, delivered_append, delivered_replicate_eintr, delivered, delivered,
                List.nil_append, List.nil_append, store_nil]
            · rw [hres, delivered_append, delivered_replicate_eintr, delivered, delivered]
              simpa using hle
            · rw [hres, delivered_append, delivered_replicate_eintr, delivered, delivered]
              simpa using hlt
            · intro init last hh
              rw [hres] at hh
              rw [← last_of_concat_eq _ _ _ _ hh]
              exact fun e => by cases e
          · rename_i hbs
            have hbpos : 0 < bs.length := by omega
            have hbl : bs.length ≤ count - total := hwb _ _ _ hlast
            split at h
            · rename_i hin
              obtain ⟨new2, ht, hrd2, hcalls, hout, hsum, hcase, hlast2⟩ :=
                try_read_loop_spec read fd count hwb fuel k' _ (store out total bs)
                  (total + bs.length) rv out' tr' (by omega)
                  (by rw [length_store _ _ _ hin]; exact hcap) h
              have hrs : results_of read k
                  (List.replicate (k' - k) (Sys.sys_read fd total (count - total)) ++ new2)
                  = (List.replicate m ReadResult.eintr ++ [ReadResult.data bs])
                    ++ results_of read k' new2 := by
                rw [results_of_append read _ _ k hallread, hres, List.length_replicate, hm, hk']
              have hdel : delivered ((List.replicate m ReadResult.eintr ++ [ReadResult.data bs])
                  ++ results_of read k' new2) = bs ++ delivered (results_of read k' new2) := by
                rw [delivered_append, delivered_append, delivered_replicate_eintr, delivered,
                  delivered, List.nil_append, List.append_nil]
              refine ⟨List.replicate (k' - k) (Sys.sys_read fd total (count - total)) ++ new2,
                by rw [ht, List.append_assoc], ?_, ?_, ?_, ?_, ?_, ?_⟩
              · intro e he
                rcases List.mem_append.1 he with h1 | h1
                · exact ⟨_, _, List.eq_of_mem_replicate h1⟩
                · exact hrd2 e h1
              · rw [hrs, read_calls_append, read_calls_append, read_calls_replicate_eintr,
                  delivered_append, delivered_replicate_eintr, delivered, delivered, read_calls,
                  read_calls, hm, List.replicate_succ']
                simp only [List.nil_append, List.append_nil, List.length_nil, Nat.add_zero,
                  List.append_assoc, List.singleton_append, List.length_append]
                rw [← hcalls]
              · rw [hrs, hdel, hout, store_store _ _ _ _ hin]
              · rw [hrs, hdel, List.length_append]; omega
              · rw [hrs, hdel, List.length_append]
                rcases hcase with ⟨h1, h2, h3⟩ | ⟨h1, h2, init, last, h3, h4, h5⟩
                · refine Or.inl ⟨h1, by omega, ?_⟩
                  intro r hr
                  rcases List.mem_append.1 hr with hr1 | hr1
                  · rcases List.mem_append.1 hr1 with hr2 | hr2
                    · exact goes_on_of_mem_replicate_eintr m r hr2
                    · rw [List.mem_singleton.1 hr2]; exact Or.inr ⟨bs, rfl, hbpos⟩
                  · exact h3 r hr1
                · refine Or.inr ⟨h1, by omega,
                    (List.replicate m ReadResult.eintr ++ [ReadResult.data bs]) ++ init, last,
                    by rw [h3]; simp only [List.append_assoc], ?_, h5⟩
                  intro r hr
                  rcases List.mem_append.1 hr with hr1 | hr1
                  · rcases List.mem_append.1 hr1 with hr2 | hr2
                    · exact goes_on_of_mem_replicate_eintr m r hr2
                    · rw [List.mem_singleton.1 hr2]; exact Or.inr ⟨bs, rfl, hbpos⟩
                  · exact h4 r hr1
              · intro init last hh
                rw [hrs] at hh
                rcases List.eq_nil_or_concat (results_of read k' new2) with hnil | ⟨i2, l2, hc2⟩
                · rw [hnil, List.append_nil] at hh
                  rw [← last_of_concat_eq _ _ _ _ hh]
                  exact fun e => by cases e
                · have hc2' : results_of read k' new2 = i2 ++ [l2] := by
                    rw [hc2, List.concat_eq_append]
                  rw [hc2', ← List.append_assoc] at hh
                  rw [← last_of_concat_eq _ _ _ _ hh]
                  exact hlast2 i2 l2 hc2'
            · cases h
    · rename_i hlt
      simp only [Run.ret.injEq, Prod.mk.injEq] at h
      obtain ⟨h1, h2, h3⟩ := h
      subst h1 h2 h3
      refine ⟨[], by simp, by simp, rfl, ?_, ?_, Or.inl ⟨rfl, ?_, ?_⟩, ?_⟩
      · simp [results_of, delivered, store_nil]
      · simp [results_of, delivered]; exact hle
      · simp [results_of, delivered]; omega
      · simp [results_of]
      · intro init last hh
        simp [results_of] at hh

theorem goes_on_not_gives_up (r : ReadResult) (h : goes_on r) : ¬ gives_up r := by
  rintro (g | g)
  · rcases h with h | ⟨bs, h, hb⟩
    · rw [g] at h; cases h
    · rw [g] at h
      simp only [ReadResult.data.injEq] at h
      rw [← h] at hb
      exact absurd hb (by decide)
  · rcases h with h | ⟨bs, h, _⟩
    · rw [g] at h; cases h
    · rw [g] at h; cases h

/-- Every `read` call that `try_read` adds to its list is issued at an offset `off` below
`count`, for exactly `count - off` bytes. -/
theorem try_read_loop_offsets (read : Nat → Int → Nat → ReadResult) (fd : Int) (count : Nat) :
    ∀ (fuel k : Nat) (tr : List Sys) (out : List Nat) (total : Nat) (rv : Int)
      (out' : List Nat) (tr' : List Sys),
      (∀ e ∈ tr, ∃ off, off < count ∧ e = Sys.sys_read fd off (count - off)) →
      try_read_loop read fd count fuel k tr out total = .ret (rv, out', tr') →
      ∀ e ∈ tr', ∃ off, off < count ∧ e = Sys.sys_read fd off (count - off)
  | 0, k, tr, out, total, rv, out', tr', htr, h => by
    unfold try_read_loop at h
    split at h
    · cases h
    · simp only [Run.ret.injEq, Prod.mk.injEq] at h
      rw [← h.2.2]; exact htr
  | fuel + 1, k, tr, out, total, rv, out', tr', htr, h => by
    unfold try_read_loop at h
    split at h
    · rename_i hlt
      split at h
      · cases h
      · rename_i r k' _
        have htr2 : ∀ e ∈ tr ++ List.replicate (k' - k) (Sys.sys_read fd total (count - total)),
            ∃ off, off < count ∧ e = Sys.sys_read fd off (count - off) := by
          intro e he
          rcases List.mem_append.1 he with h1 | h1
          · exact htr e h1
          · exact ⟨total, hlt, List.eq_of_mem_replicate h1⟩
        cases r with
        | data bs =>
          simp only at h
          split at h
          · simp only [Run.ret.injEq, Prod.mk.injEq] at h
            rw [← h.2.2]; exact htr2
          · split at h
            · exact try_read_loop_offsets read fd count fuel _ _ _ _ rv out' tr' htr2 h
            · cases h
        | eintr =>
          simp only [Run.ret.injEq, Prod.mk.injEq] at h
          rw [← h.2.2]; exact htr2
        | error =>
          simp only [Run.ret.injEq, Prod.mk.injEq] at h
          rw [← h.2.2]; exact htr2
    · simp only [Run.ret.injEq, Prod.mk.injEq] at h
      rw [← h.2.2]; exact htr

/-- With a `read` that returns at most the number of bytes asked for, `try_read` never
stores outside an array of at least `count` bytes. -/
theorem try_read_loop_no_oob (read : Nat → Int → Nat → ReadResult) (fd : Int) (count : Nat)
    (hwb : ∀ k n bs, read k fd n = ReadResult.data bs → bs.length ≤ n) :
    ∀ (fuel k : Nat) (tr : List Sys) (out : List Nat) (total : Nat),
      total ≤ count → count ≤ out.length →
      try_read_loop read fd count fuel k tr out total ≠ .oob
  | 0, k, tr, out, total, _, _ => by
    unfold try_read_loop
    split <;> exact fun h => by cases h
  | fuel + 1, k, tr, out, total, hle, hcap => by
    unfold try_read_loop
    split
    · rename_i hlt
      split
      · exact fun h => by cases h
      · rename_i r k' hrr
        obtain ⟨_, _, hlast, _⟩ := read_retry_spec read fd _ _ _ _ _ hrr
        cases r with
        | data bs =>
          have hbl : bs.length ≤ count - total := hwb _ _ _ hlast
          simp only
          split
          · exact fun h => by cases h
          · rw [if_pos (by omega)]
            exact try_read_loop_no_oob read fd count hwb fuel _ _ _ _ (by omega)
              (by rw [length_store _ _ _ (by omega)]; exact hcap)
        | eintr => exact fun h => by cases h
        | error => exact fun h => by cases h
    · exact fun h => by cases h

/-- More fuel does not change what the inner loop of `try_read` returns. -/
theorem read_retry_mono (read : Nat → Int → Nat → ReadResult) (fd : Int) (n : Nat) :
    ∀ (fuel k : Nat) (x : ReadResult × Nat), read_retry read fd n fuel k = some x →
      ∀ d, read_retry read fd n (fuel + d) k = some x
  | 0, k, x, h, _ => by simp [read_retry] at h
  | fuel + 1, k, x, h, d => by
    have e : fuel + 1 + d = (fuel + d) + 1 := by omega
    rw [e]
    unfold read_retry at h ⊢
    cases hc : read k fd n with
    | eintr =>
      rw [hc] at h
      simp only
      exact read_retry_mono read fd n fuel (k + 1) x h d
    | data bs => rw [hc] at h; exact h
    | error => rw [hc] at h; exact h

/-- More fuel does not change what `try_read` returns. -/
theorem try_read_loop_mono (read : Nat → Int → Nat → ReadResult) (fd : Int) (count : Nat) :
    ∀ (fuel k : Nat) (tr : List Sys) (out : List Nat) (total : Nat)
      (x : Int × List Nat × List Sys),
      try_read_loop read fd count fuel k tr out total = .ret x →
      ∀ d, try_read_loop read fd count (fuel + d) k tr out total = .ret x
  | 0, k, tr, out, total, x, h, d => by
    unfold try_read_loop at h
    split at h
    · cases h
    · rename_i hlt
      cases d with
      | zero => unfold try_read_loop; rw [if_neg hlt]; exact h
      | succ d =>
        have e : 0 + (d + 1) = d + 1 := by omega
        rw [e]
        unfold try_read_loop
        rw [if_neg hlt]; exact h
  | fuel + 1, k, tr, out, total, x, h, d => by
    have e : fuel + 1 + d = (fuel + d) + 1 := by omega
    rw [e]
    unfold try_read_loop at h ⊢
    split at h
    · rename_i hlt
      rw [if_pos hlt]
      split at h
      · cases h
      · rename_i r k' hrr
        have hrr' := read_retry_mono read fd (count - total) (fuel + 1) k (r, k') hrr d
        have e2 : fuel + 1 + d = fuel + d + 1 := by omega
        rw [e2] at hrr'
        rw [hrr']
        cases r with
        | data bs =>
          simp only at h ⊢
          split at h
          · rename_i hb
            rw [if_pos hb]; exact h
          · rename_i hb
            rw [if_neg hb]
            split at h
            · rename_i hin
              rw [if_pos hin]
              exact try_read_loop_mono read fd count fuel _ _ _ _ x h d
            · cases h
        | eintr => exact h
        | error => exact h
    · rename_i hlt
      rw [if_neg hlt]; exact h

/-- The inner loop of `try_read` returns as soon as the fuel covers the run of `EINTR`
results in front of it. -/
theorem read_retry_terminates (read : Nat → Int → Nat → ReadResult) (fd : Int) (n : Nat) :
    ∀ (m k : Nat), read (k + m) fd n ≠ ReadResult.eintr →
      ∃ r k', read_retry read fd n (m + 1) k = some (r, k')
  | 0, k, h => by
    unfold read_retry
    cases hc : read k fd n with
    | eintr => exact absurd hc h
    | data bs => exact ⟨_, _, rfl⟩
    | error => exact ⟨_, _, rfl⟩
  | m + 1, k, h => by
    unfold read_retry
    cases hc : read k fd n with
    | eintr =>
      simp only
      exact read_retry_terminates read fd n m (k + 1) (by
        have e : k + 1 + m = k + (m + 1) := by omega
        rw [e]; exact h)
    | data bs => exact ⟨_, _, rfl⟩
    | error => exact ⟨_, _, rfl⟩

/-- With a `read` that returns at most the number of bytes asked for and never reports
`EINTR` forever, `try_read` returns once it has enough fuel. -/
theorem try_read_loop_terminates (read : Nat → Int → Nat → ReadResult) (fd : Int)
    (count : Nat) (hwb : ∀ k n bs, read k fd n = ReadResult.data bs → bs.length ≤ n)
    (hfin : ∀ k n, ∃ m, read (k + m) fd n ≠ ReadResult.eintr) :
    ∀ (d k : Nat) (tr : List Sys) (out : List Nat) (total : Nat),
      count - total ≤ d → total ≤ count → count ≤ out.length →
      ∃ fuel x, try_read_loop read fd count fuel k tr out total = .ret x
  | 0, k, tr, out, total, hd, hle, _ => by
    refine ⟨0, (0, out, tr), ?_⟩
    unfold try_read_loop
    rw [if_neg (by omega)]
  | d + 1, k, tr, out, total, hd, hle, hcap => by
    by_cases hlt : total < count
    · obtain ⟨m, hm⟩ := hfin k (count - total)
      obtain ⟨r, k', hrr⟩ := read_retry_terminates read fd (count - total) m k hm
      obtain ⟨_, _, hlast, hne⟩ := read_retry_spec read fd _ _ _ _ _ hrr
      cases r with
      | eintr => exact absurd rfl hne
      | error =>
        refine ⟨m + 1, (-1, out,
          tr ++ List.replicate (k' - k) (Sys.sys_read fd total (count - total))), ?_⟩
        unfold try_read_loop
        rw [if_pos hlt, hrr]
      | data bs =>
        by_cases hb : bs.length < 1
        · refine ⟨m + 1, (-1, out,
            tr ++ List.replicate (k' - k) (Sys.sys_read fd total (count - total))), ?_⟩
          unfold try_read_loop
          rw [if_pos hlt, hrr]
          simp only
          rw [if_pos hb]
        · have hbl : bs.length ≤ count - total := hwb _ _ _ hlast
          have hin : total + bs.length ≤ out.length := by omega
          obtain ⟨fuel2, x, hx⟩ := try_read_loop_terminates read fd count hwb hfin d k'
            (tr ++ List.replicate (k' - k) (Sys.sys_read fd total (count - total)))
            (store out total bs) (total + bs.length) (by omega) (by omega)
            (by rw [length_store _ _ _ hin]; exact hcap)
          have hrr' := read_retry_mono read fd (count - total) (m + 1) k _ hrr (max m fuel2 - m)
          have e1 : m + 1 + (max m fuel2 - m) = max m fuel2 + 1 := by omega
          rw [e1] at hrr'
          have hx' := try_read_loop_mono read fd count fuel2 _ _ _ _ x hx (max m fuel2 - fuel2)
          have e2 : fuel2 + (max m fuel2 - fuel2) = max m fuel2 := by omega
          rw [e2] at hx'
          refine ⟨max m fuel2 + 1, x, ?_⟩
          unfold try_read_loop
          rw [if_pos hlt, hrr']
          simp only
          rw [if_neg hb, if_pos hin]
          exact hx'
    · refine ⟨0, (0, out, tr), ?_⟩
      unfold try_read_loop
      rw [if_neg hlt]

theorem read_calls_head (fd : Int) (count t : Nat) (rs : List ReadResult) (e : Sys)
    (h : (read_calls fd count t rs)[0]? = some e) : e = Sys.sys_read fd t (count - t) := by
  cases rs with
  | nil => simp [read_calls] at h
  | cons r rs =>
    cases r <;> simp only [read_calls, List.getElem?_cons_zero, Option.some.injEq] at h <;>
      exact h.symm

/-- In a list of calls that is `read_calls` of its own results, the offset of a call that
has a successor moves by the number of bytes the call delivered; and the call went on. -/
theorem read_calls_step (read : Nat → Int → Nat → ReadResult) (fd : Int) (count : Nat) :
    ∀ (new : List Sys) (k t : Nat),
      (∀ e ∈ new, ∃ off n, e = Sys.sys_read fd off n) →
      new = read_calls fd count t (results_of read k new) →
      (∀ r ∈ (results_of read k new).dropLast, goes_on r) →
      ∀ (j off n off' n' : Nat), new[j]? = some (Sys.sys_read fd off n) →
        new[j + 1]? = some (Sys.sys_read fd off' n') →
        goes_on (read (k + j) fd n) ∧
          off' = off + (delivered [read (k + j) fd n]).length
  | [], k, t, _, _, _, j, off, n, off', n', h1, _ => by simp at h1
  | e :: rest, k, t, hall, hcalls, hgood, j, off, n, off', n', h1, h2 => by
    obtain ⟨o, n0, he⟩ := hall e (List.mem_cons_self _ _)
    subst he
    have hall' : ∀ e ∈ rest, ∃ off n, e = Sys.sys_read fd off n :=
      fun e he => hall e (List.mem_cons_of_mem _ he)
    rw [results_of] at hcalls hgood
    have hrest_ne : rest ≠ [] := by
      intro e
      rw [e] at h2
      cases j <;> simp at h2
    have hres_ne : results_of read (k + 1) rest ≠ [] := by
      intro e
      cases rest with
      | nil => exact hrest_ne rfl
      | cons x xs =>
        obtain ⟨o', n1, hx⟩ := hall' x (List.mem_cons_self _ _)
        subst hx
        rw [results_of] at e
        cases e
    rw [List.dropLast_cons_of_ne_nil hres_ne] at hgood
    have hg0 : goes_on (read k fd n0) := hgood _ (List.mem_cons_self _ _)
    have hgood' : ∀ r ∈ (results_of read (k + 1) rest).dropLast, goes_on r :=
      fun r hr => hgood r (List.mem_cons_of_mem _ hr)
    have hshape : Sys.sys_read fd o n0 = Sys.sys_read fd t (count - t) ∧
        rest = read_calls fd count (t + (delivered [read k fd n0]).length)
          (results_of read (k + 1) rest) := by
      cases hr : read k fd n0 with
      | data bs =>
        rw [hr, read_calls] at hcalls
        simp only [List.cons.injEq] at hcalls
        refine ⟨hcalls.1, ?_⟩
        simpa [delivered] using hcalls.2
      | eintr =>
        rw [hr, read_calls] at hcalls
        simp only [List.cons.injEq] at hcalls
        refine ⟨hcalls.1, ?_⟩
        simpa [delivered] using hcalls.2
      | error =>
        rw [hr, read_calls] at hcalls
        simp only [List.cons.injEq] at hcalls
        refine ⟨hcalls.1, ?_⟩
        simpa [delivered] using hcalls.2
    obtain ⟨hhead, hrest⟩ := hshape
    simp only [Sys.sys_read.injEq, true_and] at hhead
    cases j with
    | zero =>
      simp only [List.getElem?_cons_zero, Option.some.injEq, Sys.sys_read.injEq, true_and] at h1
      simp only [Nat.zero_add, List.getElem?_cons_succ] at h2
      obtain ⟨ho, hn⟩ := h1
      subst ho hn
      rw [hrest] at h2
      have := read_calls_head fd count _ _ _ h2
      simp only [Sys.sys_read.injEq, true_and] at this
      refine ⟨by simpa using hg0, ?_⟩
      rw [this.1, hhead.1]
      simp
    | succ j =>
      simp only [List.getElem?_cons_succ] at h1 h2
      have ih := read_calls_step read fd count rest (k + 1) _ hall' hrest hgood'
        j off n off' n' h1 h2
      have e : k + 1 + j = k + (j + 1) := by omega
      rw [e] at ih
      exact ih

/-- In a list of calls that is `read_calls` of its own results and whose last result is
not `EINTR`, a call that reported `EINTR` is followed by the same call. -/
theorem read_calls_retry (read : Nat → Int → Nat → ReadResult) (fd : Int) (count : Nat) :
    ∀ (new : List Sys) (k t : Nat),
      (∀ e ∈ new, ∃ off n, e = Sys.sys_read fd off n) →
      new = read_calls fd count t (results_of read k new) →
      (∀ init last, results_of read k new = init ++ [last] → last ≠ ReadResult.eintr) →
      ∀ (j off n : Nat), new[j]? = some (Sys.sys_read fd off n) →
        read (k + j) fd n = ReadResult.eintr →
        new[j + 1]? = some (Sys.sys_read fd off n)
  | [], k, t, _, _, _, j, off, n, h1, _ => by simp at h1
  | e :: rest, k, t, hall, hcalls, hlast, j, off, n, h1, h2 => by
    obtain ⟨o, n0, he⟩ := hall e (List.mem_cons_self _ _)
    subst he
    have hall' : ∀ e ∈ rest, ∃ off n, e = Sys.sys_read fd off n :=
      fun e he => hall e (List.mem_cons_of_mem _ he)
    rw [results_of] at hcalls hlast
    have hlast' : ∀ init last, results_of read (k + 1) rest = init ++ [last] →
        last ≠ ReadResult.eintr := by
      intro init last hh
      exact hlast (read k fd n0 :: init) last (by rw [hh, List.cons_append])
    have hshape : Sys.sys_read fd o n0 = Sys.sys_read fd t (count - t) ∧
        rest = read_calls fd count (t + (delivered [read k fd n0]).length)
          (results_of read (k + 1) rest) := by
      cases hr : read k fd n0 with
      | data bs =>
        rw [hr, read_calls] at hcalls
        simp only [List.cons.injEq] at hcalls
        refine ⟨hcalls.1, ?_⟩
        simpa [delivered] using hcalls.2
      | eintr =>
        rw [hr, read_calls] at hcalls
        simp only [List.cons.injEq] at hcalls
        refine ⟨hcalls.1, ?_⟩
        simpa [delivered] using hcalls.2
      | error =>
        rw [hr, read_calls] at hcalls
        simp only [List.cons.injEq] at hcalls
        refine ⟨hcalls.1, ?_⟩
        simpa [delivered] using hcalls.2
    obtain ⟨hhead, hrest⟩ := hshape
    simp only [Sys.sys_read.injEq, true_and] at hhead
    cases j with
    | zero =>
      simp only [List.getElem?_cons_zero, Option.some.injEq, Sys.sys_read.injEq, true_and] at h1
      obtain ⟨ho, hn⟩ := h1
      subst ho hn
      simp only [Nat.add_zero] at h2
      simp only [Nat.zero_add, List.getElem?_cons_succ]
      cases rest with
      | nil =>
        exact absurd h2 (hlast [] _ (by simp [results_of]))
      | cons x xs =>
        obtain ⟨o1, n1, hx⟩ := hall' x (List.mem_cons_self _ _)
        subst hx
        rw [h2] at hrest
        rw [results_of] at hrest
        have hx0 : (Sys.sys_read fd o1 n1 :: xs)[0]? = some (Sys.sys_read fd o1 n1) := by simp
        rw [hrest] at hx0
        have := read_calls_head fd count _ _ _ hx0
        simp only [delivered, List.length_nil, Nat.add_zero] at this
        simp only [List.getElem?_cons_zero, Option.some.injEq]
        rw [this, hhead.1, hhead.2]
    | succ j =>
      simp only [List.getElem?_cons_succ] at h1 ⊢
      have e : k + (j + 1) = k + 1 + j := by omega
      rw [e] at h2
      exact read_calls_retry read fd count rest (k + 1) _ hall' hrest hlast' j off n h1 h2

/-- A failed `try_read` makes `bcrypt_hash` return NULL with `*is_null = 1` once
`try_close` has returned. -/
theorem bcrypt_hash_read_fail (P : Primitive) (w : World) (fuel : Nat) (s : Nat → Nat) (n : Nat)
    (c : Option Int) (len is_null : Nat) (rd : Int) (randb : List Nat) (reads : List Sys)
    (cl : Int) (nc : Nat)
    (hn : n ≤ PASS_MAXLEN) (hnz : ∀ j, j < n → s j ≠ 0)
    (hopen : 0 ≤ w.open_fd)
    (hread : try_read w.read fuel w.open_fd (uninit (w.junk 1) RANDBYTES) RANDBYTES
      = .ret (rd, randb, reads))
    (hrd : rd ≠ 0)
    (hclose : try_close w.close w.open_fd fuel 0 = .ret (cl, nc)) :
    bcrypt_hash P w fuel (some s) n c len is_null
      = .ret ⟨none, len, 1,
          Sys.sys_open :: (reads ++ List.replicate nc (Sys.sys_close w.open_fd))⟩ := by
  unfold bcrypt_hash
  simp only [copy_pass_ok (w.junk 0) s n hn hnz, hread, hclose]
  rw [if_neg (by simp), if_neg (by omega), if_pos hrd]

theorem toy_read_chunked_le (k : Nat) (fd : Int) (n : Nat) (bs : List Nat)
    (h : toy_read_chunked k fd n = ReadResult.data bs) : bs.length ≤ n := by
  match k, h with
  | 1, h =>
    simp only [toy_read_chunked, ReadResult.data.injEq] at h
    rw [← h]; simp
  | k + 3, h =>
    simp only [toy_read_chunked, ReadResult.data.injEq] at h
    rw [← h]; simp

theorem toy_read_chunked_fin (k : Nat) (fd : Int) (n : Nat) :
    ∃ m, toy_read_chunked (k + m) fd n ≠ ReadResult.eintr :=
  ⟨3, by simp [toy_read_chunked]⟩

theorem toy_read_eof_le (k : Nat) (fd : Int) (n : Nat) (bs : List Nat)
    (h : toy_read_eof k fd n = ReadResult.data bs) : bs.length ≤ n := by
  match k, h with
  | 0, h =>
    simp only [toy_read_eof, ReadResult.data.injEq] at h
    rw [← h]; simp
  | k + 1, h =>
    simp only [toy_read_eof, ReadResult.data.injEq] at h
    rw [← h]; simp

/-! ## C3: the value returned by timing_safe_strcmp -/

/-- Where the property of C3 does hold: for every pair of NUL-terminated strings `a` and
`b` whose lengths are at most `INT_MAX = 2 ^ 31 - 1` (the strings held in the 64-byte
arrays of `bcrypt_check` among them), `timing_safe_strcmp a b` returns a value that is
zero if and only if `a` and `b` are equal as strings; and when the lengths are equal the
returned value is the bitwise OR over all positions of `a[i] XOR b[i]`. -/
theorem timing_safe_strcmp_zero_iff_equal (a b : List Nat) (ha : 0 ∈ a) (hb : 0 ∈ b)
    (hla : (c_str a).length ≤ INT_MAX) (hlb : (c_str b).length ≤ INT_MAX) :
    (∃ v, timing_safe_strcmp a b = .ret v ∧ (v = 0 ↔ c_str a = c_str b)) ∧
    ((c_str a).length = (c_str b).length →
      timing_safe_strcmp a b = .ret (or_of_xors (c_str a) (c_str b) : Int)) := by
  have hs := timing_safe_strcmp_steps_eq a b ha hb hla hlb
  unfold timing_safe_strcmp
  rw [hs]
  by_cases hl : (c_str a).length = (c_str b).length
  · rw [if_neg (not_not.2 hl)]
    refine ⟨⟨_, rfl, ?_⟩, fun _ => rfl⟩
    rw [← or_of_xors_eq_zero_iff _ _ hl]
    show ((or_of_xors (c_str a) (c_str b) : Nat) : Int) = 0 ↔ _
    exact Int.natCast_eq_zero
  · rw [if_pos hl]
    refine ⟨⟨1, rfl, ?_⟩, fun h => absurd h hl⟩
    constructor
    · intro h
      exact absurd h (by decide)
    · intro h
      exact absurd (congrArg List.length h) hl

/-- The strings "abc" (in a five-byte array) and "abd": the comparison returns 7, the OR of
the XORs, which is not zero, and the strings differ. -/
theorem timing_safe_strcmp_zero_iff_equal_witness :
    (∃ v, timing_safe_strcmp [97, 98, 99, 0, 5] [97, 98, 100, 0] = .ret v ∧
      (v = 0 ↔ c_str [97, 98, 99, 0, 5] = c_str [97, 98, 100, 0])) ∧
    ((c_str [97, 98, 99, 0, 5]).length = (c_str [97, 98, 100, 0]).length →
      timing_safe_strcmp [97, 98, 99, 0, 5] [97, 98, 100, 0]
        = .ret (or_of_xors (c_str [97, 98, 99, 0, 5]) (c_str [97, 98, 100, 0]) : Int)) :=
  timing_safe_strcmp_zero_iff_equal [97, 98, 99, 0, 5] [97, 98, 100, 0]
    (by decide) (by decide) (by decide) (by decide)

/-! ## C10: the number of comparison steps -/

/-- Where the property of C10 does hold: for every pair of NUL-terminated strings whose
lengths `la`, `lb` are at most `INT_MAX = 2 ^ 31 - 1`, the per-byte loop of
`timing_safe_strcmp` executes exactly `la` iterations when `la = lb` (whatever the bytes
are, wherever the first mismatch lies) and 0 iterations when the lengths differ.  (For
strings of any length the number of steps is a function of the two lengths only:
`timing_safe_strcmp_steps_general`.) -/
theorem timing_safe_strcmp_step_count (a b : List Nat) (ha : 0 ∈ a) (hb : 0 ∈ b)
    (hla : (c_str a).length ≤ INT_MAX) (hlb : (c_str b).length ≤ INT_MAX) :
    ∃ v, timing_safe_strcmp_steps a b
      = .ret (v, if (c_str a).length = (c_str b).length then (c_str a).length else 0) := by
  obtain ⟨v, hv⟩ := timing_safe_strcmp_steps_general a b ha hb
  refine ⟨v, ?_⟩
  rw [hv]
  unfold step_count
  rw [size_to_int_of_le _ hla, size_to_int_of_le _ hlb]
  by_cases h : (c_str a).length = (c_str b).length
  · simp [h]
  · have h' : ((c_str a).length : Int) ≠ ((c_str b).length : Int) := by
      intro e
      exact h (by exact_mod_cast e)
    simp [h, h']

/-- The strings "abc" against "abd" and "abc" against "xbc" both take 3 steps. -/
theorem timing_safe_strcmp_step_count_witness :
    (∃ v, timing_safe_strcmp_steps [97, 98, 99, 0] [97, 98, 100, 0]
        = .ret (v, if (c_str [97, 98, 99, 0]).length = (c_str [97, 98, 100, 0]).length
            then (c_str [97, 98, 99, 0]).length else 0)) ∧
    timing_safe_strcmp_steps [97, 98, 99, 0] [97, 98, 100, 0] = .ret (7, 3) ∧
    timing_safe_strcmp_steps [97, 98, 99, 0] [120, 98, 99, 0] = .ret (25, 3) :=
  ⟨timing_safe_strcmp_step_count [97, 98, 99, 0] [97, 98, 100, 0]
      (by decide) (by decide) (by decide) (by decide),
    by decide, by decide⟩

/-! ## C4: the return value of my_str_to_c_str -/

/-- C4 (failing input): with a 129-byte destination, declared capacity 129, a source of
non-zero bytes and the declared length `2 ^ 64 - 1`, the sum `src_sz + 1` exceeds the
capacity but wraps to 0 in `size_t`, the size check passes, and the copy loop stores
outside the destination instead of returning -1. -/
theorem my_str_to_c_str_size_max_overflow :
    (2 ^ 64 - 1) + 1 > 129 ∧ (List.replicate 129 0).length = 129 ∧
      my_str_to_c_str (some (List.replicate 129 0)) 129 (some (fun _ => 65)) (2 ^ 64 - 1)
        = .oob :=
  ⟨by decide, List.length_replicate _ _,
    my_str_to_c_str_oob (List.replicate 129 0) 129 (fun _ => 65) (2 ^ 64 - 1)
      (by decide) (by rw [List.length_replicate]; decide)
      (fun _ _ => (by decide : (65 : Nat) ≠ 0))⟩

/-! ## C5: the destination after a successful my_str_to_c_str -/

/-- C5: whenever `my_str_to_c_str` returns 0, both pointers are present and the destination
`out` after the call satisfies `out[i] = src[i]` for every `i < src_sz` and
`out[src_sz] = 0`; read as a NUL-terminated string it has length exactly `src_sz` and is
the source byte sequence; its capacity is unchanged and so is every byte at an index
greater than `src_sz`. -/
theorem my_str_to_c_str_success (dst : Option (List Nat)) (dst_sz : Nat)
    (src : Option (Nat → Nat)) (src_sz : Nat) (d' : Option (List Nat))
    (h : my_str_to_c_str dst dst_sz src src_sz = .ret (0, d')) :
    ∃ d s out, dst = some d ∧ src = some s ∧ d' = some out ∧
      (∀ i, i < src_sz → out[i]? = some (s i)) ∧
      out[src_sz]? = some 0 ∧
      c_strlen out = some src_sz ∧
      c_str out = (List.range src_sz).map s ∧
      out.length = d.length ∧
      (∀ i, src_sz < i → out[i]? = d[i]?) := by
  obtain ⟨d, s, hd, hs, hnz, hlen, hout⟩ :=
    my_str_to_c_str_ret_zero_inv dst dst_sz src src_sz d' h
  exact ⟨d, s, copied d s src_sz, hd, hs, hout,
    fun i hi => getElem?_copied_lt d s src_sz i hi,
    getElem?_copied_eq d s src_sz,
    c_strlen_copied d s src_sz hnz,
    c_str_copied d s src_sz hnz,
    length_copied d s src_sz hlen,
    fun i hi => getElem?_copied_gt d s src_sz i hi⟩

/-- C5 (witness): copying the three bytes 1, 2, 3 into a five-byte array of bytes 170. -/
theorem my_str_to_c_str_success_witness :
    my_str_to_c_str (some [170, 170, 170, 170, 170]) 5 (some (mem_of [1, 2, 3])) 3
        = .ret (0, some [1, 2, 3, 0, 170]) ∧
    ∃ d s out, some [170, 170, 170, 170, 170] = some d ∧ some (mem_of [1, 2, 3]) = some s ∧
      some [1, 2, 3, 0, 170] = some out ∧
      (∀ i, i < 3 → out[i]? = some (s i)) ∧
      out[3]? = some 0 ∧
      c_strlen out = some 3 ∧
      c_str out = (List.range 3).map s ∧
      out.length = d.length ∧
      (∀ i, 3 < i → out[i]? = d[i]?) :=
  ⟨by decide,
    my_str_to_c_str_success (some [170, 170, 170, 170, 170]) 5 (some (mem_of [1, 2, 3])) 3
      (some [1, 2, 3, 0, 170]) (by decide)⟩

/-! ## C6: work-factor resolution -/

/-- C7 (failing input): a password of non-zero bytes with declared length `2 ^ 64 - 1`
exceeds 128 bytes, yet for every cost argument `bcrypt_hash` does not return NULL: the
size check of `my_str_to_c_str` wraps and the copy stores outside `pass[129]`. -/
theorem bcrypt_hash_size_max_overflow (P : Primitive) (w : World) (fuel : Nat)
    (c : Option Int) (len is_null : Nat) :
    PASS_MAXLEN < 2 ^ 64 - 1 ∧
      bcrypt_hash P w fuel (some (fun _ => 65)) (2 ^ 64 - 1) c len is_null = .oob := by
  refine ⟨by decide, ?_⟩
  have h := copy_pass_size_max_oob (w.junk 0) (fun _ => 65)
    (fun _ _ => (by decide : (65 : Nat) ≠ 0))
  unfold bcrypt_hash
  simp only [h]

/-! ## C9: the success path of bcrypt_hash -/

/-- C9: for every present password of declared length `n ≤ 128` without zero byte below
`n` and every cost argument, if `open` succeeds, `try_read` returns 0 having filled
`randb` with `r`, `try_close` returns 0 and both primitive calls succeed, then
`bcrypt_hash` returns `res` (not NULL) holding exactly the string
`crypt_rn(password, crypt_gensalt_rn("$2b$", resolved cost, r))`, leaves `*is_null`
as it was, and sets `*len` to the length of that string, which is at most 63. -/
theorem bcrypt_hash_success (P : Primitive) (w : World) (fuel : Nat) (s : Nat → Nat) (n : Nat)
    (c : Option Int) (len is_null : Nat) (r : List Nat) (reads : List Sys) (nc : Nat)
    (salt h : List Nat)
    (hn : n ≤ PASS_MAXLEN) (hnz : ∀ j, j < n → s j ≠ 0)
    (hopen : 0 ≤ w.open_fd)
    (hread : try_read w.read fuel w.open_fd (uninit (w.junk 1) RANDBYTES) RANDBYTES
      = .ret (0, r, reads))
    (hclose : try_close w.close w.open_fd fuel 0 = .ret (0, nc))
    (hsalt : P.crypt_gensalt_rn magic_2b (resolve_workfactor c).toNat r RANDBYTES
      BCRYPT_HASHSIZE = some salt)
    (hhash : P.crypt_rn ((List.range n).map s) salt BCRYPT_HASHSIZE = some h) :
    ∃ res sys, bcrypt_hash P w fuel (some s) n c len is_null
        = .ret ⟨some res, h.length, is_null, sys⟩ ∧
      c_str res = h ∧ c_strlen res = some h.length ∧ h.length ≤ 63 ∧ r.length = 16 := by
  obtain ⟨hh1, hh0⟩ := P.crypt_fits _ _ _ _ hhash
  refine ⟨h ++ [0], _,
    bcrypt_hash_ok P w fuel s n c len is_null r reads nc salt h hn hnz hopen hread hclose
      hsalt hhash,
    c_str_append_zero h [] hh0, c_strlen_append_zero h [] hh0, ?_, ?_⟩
  · unfold BCRYPT_HASHSIZE at hh1; omega
  · rw [try_read_length _ _ _ _ _ _ _ _ hread, length_uninit]; rfl

set_option maxRecDepth 100000 in
/-- C9 (witness): hashing "hi" with cost 10 in the concrete world. -/
theorem bcrypt_hash_success_witness :
    ∃ res sys, bcrypt_hash toy_primitive toy_world 5 (some (mem_of [104, 105])) 2 (some 10) 7 0
        = .ret ⟨some res, toy_hash_hi.length, 0, sys⟩ ∧
      c_str res = toy_hash_hi ∧ c_strlen res = some toy_hash_hi.length ∧
      toy_hash_hi.length ≤ 63 ∧ toy_r.length = 16 :=
  bcrypt_hash_success toy_primitive toy_world 5 (mem_of [104, 105]) 2 (some 10) 7 0
    toy_r [Sys.sys_read 3 0 16] 1 toy_salt_10 toy_hash_hi
    (by decide) (by decide) (by decide) (by decide) (by decide) (by decide) (by decide)

/-! ## C2: the tri-state result of bcrypt_check -/

/-- C2: for every present password and present stored hash that both pass `my_str_to_c_str`
(leaving the arrays `pass'` and `hash'`) and for which `crypt_rn` succeeds with the string
`h`, `bcrypt_check` returns with `*is_null` untouched, and the value returned is 1 if and
only if `h` is identical to the stored hash string, and 0 otherwise (also when the two
differ in length); the stored hash string is the first `l1` bytes of the argument.
Moreover `*is_null` is set only when a prior step failed: if `bcrypt_check`, entered with
`*is_null = 0`, returns with `*is_null = 1`, it returns 0 and the password or the stored
hash is absent, or a copy returned non-zero, or `crypt_rn` returned NULL. -/
theorem bcrypt_check_tristate (P : Primitive) (junk : Nat → Nat → Nat)
    (args0 : Option (Nat → Nat)) (l0 : Nat) (args1 : Option (Nat → Nat)) (l1 is_null : Nat) :
    (∀ (a0 a1 : Nat → Nat) (pass' hash' h : List Nat),
      args0 = some a0 → args1 = some a1 →
      my_str_to_c_str (some (uninit (junk 0) (PASS_MAXLEN + 1))) (PASS_MAXLEN + 1)
        args0 l0 = .ret (0, some pass') →
      my_str_to_c_str (some (uninit (junk 1) BCRYPT_HASHSIZE)) BCRYPT_HASHSIZE
        args1 l1 = .ret (0, some hash') →
      P.crypt_rn (c_str pass') (c_str hash') BCRYPT_HASHSIZE = some h →
      ∃ v, bcrypt_check P junk args0 l0 args1 l1 is_null = .ret ⟨v, is_null⟩ ∧
        (v = 1 ↔ h = c_str hash') ∧ (h ≠ c_str hash' → v = 0) ∧
        c_str hash' = (List.range l1).map a1 ∧ c_str pass' = (List.range l0).map a0) ∧
    (∀ v : Int, bcrypt_check P junk args0 l0 args1 l1 0 = .ret ⟨v, 1⟩ →
      v = 0 ∧
      (args0 = none ∨
        (∃ r d, my_str_to_c_str (some (uninit (junk 0) (PASS_MAXLEN + 1))) (PASS_MAXLEN + 1)
          args0 l0 = .ret (r, d) ∧ r ≠ 0) ∨
        args1 = none ∨
        (∃ r d, my_str_to_c_str (some (uninit (junk 1) BCRYPT_HASHSIZE)) BCRYPT_HASHSIZE
          args1 l1 = .ret (r, d) ∧ r ≠ 0) ∨
        (∃ pass' hash',
          my_str_to_c_str (some (uninit (junk 0) (PASS_MAXLEN + 1))) (PASS_MAXLEN + 1)
            args0 l0 = .ret (0, some pass') ∧
          my_str_to_c_str (some (uninit (junk 1) BCRYPT_HASHSIZE)) BCRYPT_HASHSIZE
            args1 l1 = .ret (0, some hash') ∧
          P.crypt_rn (c_str pass') (c_str hash') BCRYPT_HASHSIZE = none))) := by
  refine ⟨?_, fun v hv => bcrypt_check_is_null_only_on_failure P junk args0 l0 args1 l1 v hv⟩
  intro a0 a1 pass' hash' h e0 e1 h0 h1 hc
  subst e0 e1
  have he := bcrypt_check_eval P junk a0 l0 a1 l1 is_null pass' hash' h h0 h1 hc
  obtain ⟨d0, s0, hd0, hs0, hnz0, hlen0, hp⟩ := my_str_to_c_str_ret_zero_inv _ _ _ _ _ h0
  obtain ⟨d1, s1, hd1, hs1, hnz1, hlen1, hh⟩ := my_str_to_c_str_ret_zero_inv _ _ _ _ _ h1
  simp only [Option.some.injEq] at hd0 hd1 hs0 hs1 hp hh
  subst hd0 hd1 hs0 hs1
  refine ⟨_, he, ?_, ?_, ?_, ?_⟩
  · by_cases e : h = c_str hash'
    · simp [e]
    · simp [e]
  · intro e
    simp [e]
  · rw [hh, c_str_copied _ _ _ hnz1]
  · rw [hp, c_str_copied _ _ _ hnz0]

set_option maxRecDepth 100000 in
/-- C2 (witness): in the concrete world, "hi" against the hash computed for "hi". -/
theorem bcrypt_check_tristate_witness :
    ∃ v, bcrypt_check toy_primitive (fun _ _ => 170) (some (mem_of [104, 105])) 2
        (some (mem_of toy_hash_hi)) 24 0 = .ret ⟨v, 0⟩ ∧
      (v = 1 ↔ toy_hash_hi = c_str (copied (uninit (fun _ => 170) 64) (mem_of toy_hash_hi) 24)) ∧
      (toy_hash_hi ≠ c_str (copied (uninit (fun _ => 170) 64) (mem_of toy_hash_hi) 24) → v = 0) ∧
      c_str (copied (uninit (fun _ => 170) 64) (mem_of toy_hash_hi) 24)
        = (List.range 24).map (mem_of toy_hash_hi) ∧
      c_str (copied (uninit (fun _ => 170) 129) (mem_of [104, 105]) 2)
        = (List.range 2).map (mem_of [104, 105]) :=
  (bcrypt_check_tristate toy_primitive (fun _ _ => 170) (some (mem_of [104, 105])) 2
    (some (mem_of toy_hash_hi)) 24 0).1 (mem_of [104, 105]) (mem_of toy_hash_hi)
    (copied (uninit (fun _ => 170) 129) (mem_of [104, 105]) 2)
    (copied (uninit (fun _ => 170) 64) (mem_of toy_hash_hi) 24)
    toy_hash_hi rfl rfl (by decide) (by decide) (by decide)

/-! ## C1: round trip -/

/-- C1: for every password of declared length `n ≤ 128` without zero byte below `n`, every
cost argument (present or absent) and every entropy `r`, if `open`, `try_read` and
`try_close` succeed, both primitive calls of `bcrypt_hash` succeed, and the primitive,
given the hash `h` it produced as its setting, recomputes `h` for this password, then
`bcrypt_hash` returns a non-null result and `bcrypt_check` on the same password and on
the returned bytes (`*len` bytes of `res`) returns 1 with `*is_null` untouched. -/
theorem bcrypt_roundtrip (P : Primitive) (w : World) (fuel : Nat) (junk : Nat → Nat → Nat)
    (s : Nat → Nat) (n : Nat) (c : Option Int) (len is_null is_null' : Nat)
    (r : List Nat) (reads : List Sys) (nc : Nat) (salt h : List Nat)
    (hn : n ≤ PASS_MAXLEN) (hnz : ∀ j, j < n → s j ≠ 0)
    (hopen : 0 ≤ w.open_fd)
    (hread : try_read w.read fuel w.open_fd (uninit (w.junk 1) RANDBYTES) RANDBYTES
      = .ret (0, r, reads))
    (hclose : try_close w.close w.open_fd fuel 0 = .ret (0, nc))
    (hsalt : P.crypt_gensalt_rn magic_2b (resolve_workfactor c).toNat r RANDBYTES
      BCRYPT_HASHSIZE = some salt)
    (hhash : P.crypt_rn ((List.range n).map s) salt BCRYPT_HASHSIZE = some h)
    (hre : P.crypt_rn ((List.range n).map s) h BCRYPT_HASHSIZE = some h) :
    ∃ res l sys,
      bcrypt_hash P w fuel (some s) n c len is_null = .ret ⟨some res, l, is_null, sys⟩ ∧
      bcrypt_check P junk (some s) n (some (mem_of (res.take l))) l is_null'
        = .ret ⟨1, is_null'⟩ := by
  obtain ⟨hh1, hh0⟩ := P.crypt_fits _ _ _ _ hhash
  refine ⟨h ++ [0], h.length, _,
    bcrypt_hash_ok P w fuel s n c len is_null r reads nc salt h hn hnz hopen hread hclose
      hsalt hhash, ?_⟩
  rw [List.take_left]
  have hsrc : ∀ j, j < h.length → mem_of h j ≠ 0 := mem_of_ne_zero h hh0
  have h0 := copy_pass_ok (junk 0) s n hn hnz
  have h1 := copy_hash_ok (junk 1) (mem_of h) h.length hh1 hsrc
  have hcp : c_str (copied (uninit (junk 0) (PASS_MAXLEN + 1)) s n) = (List.range n).map s :=
    c_str_copied _ s n hnz
  have hch : c_str (copied (uninit (junk 1) BCRYPT_HASHSIZE) (mem_of h) h.length) = h := by
    rw [c_str_copied _ _ _ hsrc, map_mem_of_range]
  have he := bcrypt_check_eval P junk s n (mem_of h) h.length is_null' _ _ h h0 h1
    (by rw [hcp, hch]; exact hre)
  rw [he, hch, if_pos rfl]

set_option maxRecDepth 100000 in
/-- C1 (witness): in the concrete world, "hi" hashed with cost 10 verifies. -/
theorem bcrypt_roundtrip_witness :
    ∃ res l sys,
      bcrypt_hash toy_primitive toy_world 5 (some (mem_of [104, 105])) 2 (some 10) 7 0
        = .ret ⟨some res, l, 0, sys⟩ ∧
      bcrypt_check toy_primitive (fun _ _ => 170) (some (mem_of [104, 105])) 2
        (some (mem_of (res.take l))) l 0 = .ret ⟨1, 0⟩ :=
  bcrypt_roundtrip toy_primitive toy_world 5 (fun _ _ => 170) (mem_of [104, 105]) 2 (some 10)
    7 0 0 toy_r [Sys.sys_read 3 0 16] 1 toy_salt_10 toy_hash_hi
    (by decide) (by decide) (by decide) (by decide) (by decide) (by decide) (by decide)
    (by decide)

/-! ## C8: bcrypt_check on bad arguments -/

/-- C8 (failing input): a password of non-zero bytes with declared length `2 ^ 64 - 1` is
longer than 128 bytes, yet whatever the stored hash is (absent included) `bcrypt_check`
does not report Error: the copy stores outside `pass[129]`.  Likewise for the password
"hi" and a stored hash of non-zero bytes with declared length `2 ^ 64 - 1`: the copy
stores outside `hash[64]`. -/
theorem bcrypt_check_size_max_overflow (P : Primitive) (junk : Nat → Nat → Nat)
    (args1 : Option (Nat → Nat)) (lengths1 is_null : Nat) :
    bcrypt_check P junk (some (fun _ => 65)) (2 ^ 64 - 1) args1 lengths1 is_null = .oob ∧
    bcrypt_check P junk (some (mem_of [104, 105])) 2 (some (fun _ => 65)) (2 ^ 64 - 1) is_null
      = .oob := by
  have h := copy_pass_size_max_oob (junk 0) (fun _ => 65)
    (fun _ _ => (by decide : (65 : Nat) ≠ 0))
  constructor
  · unfold bcrypt_check
    simp only [h]
  · exact bcrypt_check_hash_oob P junk (mem_of [104, 105]) 2 (fun _ => 65) _ is_null
      (by decide) (by decide)
      (copy_hash_size_max_oob (junk 1) (fun _ => 65) (fun _ _ => (by decide : (65 : Nat) ≠ 0)))

/-! ## C14: the empty password -/

/-- C14: a present password of declared length 0 is not treated as absent:
`my_str_to_c_str` accepts it into any array with room for the terminator and leaves the
empty C string there; so when `open`, `try_read`, `try_close` and both primitive calls
succeed, `bcrypt_hash("", 10)` returns a non-null hash, and, the primitive recomputing
that hash from itself for the empty password, `bcrypt_check("", that hash)` returns 1
with `*is_null` untouched. -/
theorem bcrypt_empty_password (P : Primitive) (w : World) (fuel : Nat)
    (junk : Nat → Nat → Nat) (s : Nat → Nat) (len is_null is_null' : Nat)
    (r : List Nat) (reads : List Sys) (nc : Nat) (salt h : List Nat)
    (hopen : 0 ≤ w.open_fd)
    (hread : try_read w.read fuel w.open_fd (uninit (w.junk 1) RANDBYTES) RANDBYTES
      = .ret (0, r, reads))
    (hclose : try_close w.close w.open_fd fuel 0 = .ret (0, nc))
    (hsalt : P.crypt_gensalt_rn magic_2b 10 r RANDBYTES BCRYPT_HASHSIZE = some salt)
    (hhash : P.crypt_rn [] salt BCRYPT_HASHSIZE = some h)
    (hre : P.crypt_rn [] h BCRYPT_HASHSIZE = some h) :
    (∃ d', my_str_to_c_str (some (uninit (w.junk 0) (PASS_MAXLEN + 1))) (PASS_MAXLEN + 1)
        (some s) 0 = .ret (0, some d') ∧ c_str d' = [] ∧ c_strlen d' = some 0) ∧
    ∃ res l sys,
      bcrypt_hash P w fuel (some s) 0 (some 10) len is_null
        = .ret ⟨some res, l, is_null, sys⟩ ∧
      c_str res = h ∧ l = h.length ∧
      bcrypt_check P junk (some s) 0 (some (mem_of (res.take l))) l is_null'
        = .ret ⟨1, is_null'⟩ := by
  have hnz : ∀ j, j < 0 → s j ≠ 0 := fun j hj => absurd hj (Nat.not_lt_zero j)
  obtain ⟨hh1, hh0⟩ := P.crypt_fits _ _ _ _ hhash
  refine ⟨⟨_, copy_pass_ok (w.junk 0) s 0 (Nat.zero_le _) hnz, ?_, ?_⟩, ?_⟩
  · rw [c_str_copied _ _ _ hnz]; rfl
  · exact c_strlen_copied _ _ _ hnz
  · refine ⟨h ++ [0], h.length, _,
      bcrypt_hash_ok P w fuel s 0 (some 10) len is_null r reads nc salt h (Nat.zero_le _) hnz
        hopen hread hclose hsalt hhash,
      c_str_append_zero h [] hh0, rfl, ?_⟩
    rw [List.take_left]
    exact bcrypt_check_match P junk s 0 h is_null' (Nat.zero_le _) hnz hh1 hh0 hre

set_option maxRecDepth 100000 in
/-- C14 (witness): in the concrete world the empty password is hashed with cost 10 and the
result verifies. -/
theorem bcrypt_empty_password_witness :
    (∃ d', my_str_to_c_str (some (uninit (toy_world.junk 0) (PASS_MAXLEN + 1)))
        (PASS_MAXLEN + 1) (some (mem_of [])) 0 = .ret (0, some d') ∧
      c_str d' = [] ∧ c_strlen d' = some 0) ∧
    ∃ res l sys,
      bcrypt_hash toy_primitive toy_world 5 (some (mem_of [])) 0 (some 10) 7 0
        = .ret ⟨some res, l, 0, sys⟩ ∧
      c_str res = toy_hash_empty ∧ l = toy_hash_empty.length ∧
      bcrypt_check toy_primitive (fun _ _ => 170) (some (mem_of [])) 0
        (some (mem_of (res.take l))) l 0 = .ret ⟨1, 0⟩ :=
  bcrypt_empty_password toy_primitive toy_world 5 (fun _ _ => 170) (mem_of []) 7 0 0
    toy_r [Sys.sys_read 3 0 16] 1 toy_salt_10 toy_hash_empty
    (by decide) (by decide) (by decide) (by decide) (by decide) (by decide)

/-! ## C16: the range of timing_safe_strcmp and the last branch of bcrypt_check -/

/-- C16: for every pair of NUL-terminated strings of bytes, `timing_safe_strcmp` returns a
value in the range 0..255, never a negative one; consequently the last `else` of
`bcrypt_check` is never taken: whenever both copies and `crypt_rn` succeed the
comparison returns a non-negative value and `*is_null` is left untouched, and if
`bcrypt_check`, entered with `*is_null = 0`, returns with `*is_null = 1`, then the
password or the stored hash is absent, or a copy returned non-zero, or `crypt_rn`
returned NULL. -/
theorem timing_safe_strcmp_range (a b : List Nat) (ha : 0 ∈ a) (hb : 0 ∈ b)
    (hba : ∀ x ∈ a, x < 256) (hbb : ∀ x ∈ b, x < 256)
    (P : Primitive) (junk : Nat → Nat → Nat)
    (args0 : Option (Nat → Nat)) (l0 : Nat) (args1 : Option (Nat → Nat)) (l1 is_null : Nat) :
    (∃ v : Int, timing_safe_strcmp a b = .ret v ∧ 0 ≤ v ∧ v ≤ 255) ∧
    (∀ (pass' hash' h : List Nat),
      my_str_to_c_str (some (uninit (junk 0) (PASS_MAXLEN + 1))) (PASS_MAXLEN + 1)
        args0 l0 = .ret (0, some pass') →
      my_str_to_c_str (some (uninit (junk 1) BCRYPT_HASHSIZE)) BCRYPT_HASHSIZE
        args1 l1 = .ret (0, some hash') →
      P.crypt_rn (c_str pass') (c_str hash') BCRYPT_HASHSIZE = some h →
      (∃ v : Int, timing_safe_strcmp hash' (h ++ [0]) = .ret v ∧ 0 ≤ v) ∧
      ∃ x, bcrypt_check P junk args0 l0 args1 l1 is_null = .ret ⟨x, is_null⟩) ∧
    (∀ v : Int, bcrypt_check P junk args0 l0 args1 l1 0 = .ret ⟨v, 1⟩ →
      v = 0 ∧
      (args0 = none ∨
        (∃ r d, my_str_to_c_str (some (uninit (junk 0) (PASS_MAXLEN + 1))) (PASS_MAXLEN + 1)
          args0 l0 = .ret (r, d) ∧ r ≠ 0) ∨
        args1 = none ∨
        (∃ r d, my_str_to_c_str (some (uninit (junk 1) BCRYPT_HASHSIZE)) BCRYPT_HASHSIZE
          args1 l1 = .ret (r, d) ∧ r ≠ 0) ∨
        (∃ pass' hash',
          my_str_to_c_str (some (uninit (junk 0) (PASS_MAXLEN + 1))) (PASS_MAXLEN + 1)
            args0 l0 = .ret (0, some pass') ∧
          my_str_to_c_str (some (uninit (junk 1) BCRYPT_HASHSIZE)) BCRYPT_HASHSIZE
            args1 l1 = .ret (0, some hash') ∧
          P.crypt_rn (c_str pass') (c_str hash') BCRYPT_HASHSIZE = none))) := by
  refine ⟨?_, ?_, fun v hv => bcrypt_check_is_null_only_on_failure P junk args0 l0 args1 l1 v hv⟩
  · obtain ⟨v, hv, hcase⟩ := timing_safe_strcmp_nonneg a b ha hb
    refine ⟨(v : Int), hv, Int.ofNat_nonneg v, ?_⟩
    have hlt : v < 256 := by
      rcases hcase with h1 | h1
      · rw [h1]; decide
      · rw [h1]; exact timing_safe_loop_lt_256 a b hba hbb _ 0 0 0 (by decide)
    have : v ≤ 255 := by omega
    exact_mod_cast this
  · intro pass' hash' h h0 h1 hc
    obtain ⟨d0, s0, hd0, hs0, hnz0, hlen0, hp⟩ := my_str_to_c_str_ret_zero_inv _ _ _ _ _ h0
    obtain ⟨d1, s1, hd1, hs1, hnz1, hlen1, hh⟩ := my_str_to_c_str_ret_zero_inv _ _ _ _ _ h1
    subst hs0 hs1
    simp only [Option.some.injEq] at hh
    have hhm : 0 ∈ hash' := by rw [hh]; exact zero_mem_copied _ _ _
    obtain ⟨v, hv, _⟩ := timing_safe_strcmp_nonneg hash' (h ++ [0]) hhm (by simp)
    exact ⟨⟨(v : Int), hv, Int.ofNat_nonneg v⟩, _,
      bcrypt_check_eval P junk s0 l0 s1 l1 is_null pass' hash' h h0 h1 hc⟩

set_option maxRecDepth 100000 in
/-- C16 (witness): "abc" against "abd" returns a value between 0 and 255; and in the
concrete world, checking "hi" against its hash reaches the comparison, which returns a
non-negative value, and `*is_null` stays 0. -/
theorem timing_safe_strcmp_range_witness :
    (∃ v : Int, timing_safe_strcmp [97, 98, 99, 0] [97, 98, 100, 0] = .ret v ∧
      0 ≤ v ∧ v ≤ 255) ∧
    ((∃ v : Int, timing_safe_strcmp
        (copied (uninit (fun _ => 170) 64) (mem_of toy_hash_hi) 24) (toy_hash_hi ++ [0])
          = .ret v ∧ 0 ≤ v) ∧
      ∃ x, bcrypt_check toy_primitive (fun _ _ => 170) (some (mem_of [104, 105])) 2
        (some (mem_of toy_hash_hi)) 24 0 = .ret ⟨x, 0⟩) :=
  ⟨(timing_safe_strcmp_range [97, 98, 99, 0] [97, 98, 100, 0] (by decide) (by decide)
      (by decide) (by decide) toy_primitive (fun _ _ => 170) none 0 none 0 0).1,
    (timing_safe_strcmp_range [97, 98, 99, 0] [97, 98, 100, 0] (by decide) (by decide)
      (by decide) (by decide) toy_primitive (fun _ _ => 170) (some (mem_of [104, 105])) 2
      (some (mem_of toy_hash_hi)) 24 0).2.1
      (copied (uninit (fun _ => 170) 129) (mem_of [104, 105]) 2)
      (copied (uninit (fun _ => 170) 64) (mem_of toy_hash_hi) 24)
      toy_hash_hi (by decide) (by decide) (by decide)⟩

/-! ## C18: the destination after a failed my_str_to_c_str -/

/-- C18: when `my_str_to_c_str` fails because a pointer is absent or the size check rejects
the length, it returns -1 with the destination exactly as it was; when both pointers are
present, the length leaves room for the terminator and the first zero byte of the source
is at index `k < src_sz`, it returns -1 with `dst[0..k)` overwritten by `src[0..k)` and
every byte at an index `≥ k` unchanged (so no terminator has been written); and every
return of -1 is one of these two. -/
theorem my_str_to_c_str_failure_effect (dst : Option (List Nat)) (dst_sz : Nat)
    (src : Option (Nat → Nat)) (src_sz : Nat) :
    ((dst = none ∨ src = none ∨ (src_sz + 1) % SIZE_MOD > dst_sz) →
      my_str_to_c_str dst dst_sz src src_sz = .ret (-1, dst)) ∧
    (∀ (d : List Nat) (s : Nat → Nat) (k : Nat), dst = some d → src = some s →
      src_sz + 1 ≤ dst_sz → dst_sz ≤ d.length →
      k < src_sz → s k = 0 → (∀ j, j < k → s j ≠ 0) →
      ∃ out, my_str_to_c_str dst dst_sz src src_sz = .ret (-1, some out) ∧
        out.length = d.length ∧
        (∀ j, j < k → out[j]? = some (s j)) ∧
        (∀ j, k ≤ j → out[j]? = d[j]?)) ∧
    (∀ d', my_str_to_c_str dst dst_sz src src_sz = .ret (-1, d') →
      ((dst = none ∨ src = none ∨ (src_sz + 1) % SIZE_MOD > dst_sz) ∧ d' = dst) ∨
      (∃ d s k out, dst = some d ∧ src = some s ∧ d' = some out ∧
        k < src_sz ∧ s k = 0 ∧ (∀ j, j < k → s j ≠ 0) ∧ k ≤ d.length ∧
        out.length = d.length ∧
        (∀ j, j < k → out[j]? = some (s j)) ∧
        (∀ j, k ≤ j → out[j]? = d[j]?))) := by
  have inv : ∀ (d : List Nat) (s : Nat → Nat) (d' : Option (List Nat)),
      ¬ (src_sz + 1) % SIZE_MOD > dst_sz →
      my_str_to_c_str (some d) dst_sz (some s) src_sz = .ret (-1, d') →
      ∃ k out, d' = some out ∧
        k < src_sz ∧ s k = 0 ∧ (∀ j, j < k → s j ≠ 0) ∧ k ≤ d.length ∧
        out.length = d.length ∧
        (∀ j, j < k → out[j]? = some (s j)) ∧
        (∀ j, k ≤ j → out[j]? = d[j]?) := by
    intro d s d' hc h
    unfold my_str_to_c_str at h
    simp only [hc, if_false] at h
    cases hl : copy_loop s src_sz 0 d with
    | oob => rw [hl] at h; cases h
    | spin => rw [hl] at h; cases h
    | ret p =>
      obtain ⟨r, d2⟩ := p
      rw [hl] at h
      simp only [Run.ret.injEq, Prod.mk.injEq] at h
      obtain ⟨hr, hd⟩ := h
      subst hr
      obtain ⟨k, _, hk2, hk3, hk4, hlen, hkl, hcp, hu⟩ :=
        copy_loop_ret_neg_inv s src_sz 0 d d2 (Nat.zero_le _) hl
      exact ⟨k, d2, hd.symm, by omega, hk3, fun j hj => hk4 j (Nat.zero_le _) hj, hkl, hlen,
        fun j hj => hcp j (Nat.zero_le _) hj, fun j hj => hu j (Or.inr hj)⟩
  refine ⟨?_, ?_, ?_⟩
  · rintro (h | h | h)
    · exact my_str_to_c_str_absent dst dst_sz src src_sz (Or.inl h)
    · exact my_str_to_c_str_absent dst dst_sz src src_sz (Or.inr h)
    · cases dst with
      | none => rfl
      | some d =>
        cases src with
        | none => rfl
        | some s => simp [my_str_to_c_str, h]
  · intro d s k hd hs hsz hcap hk hz hfirst
    subst hd hs
    have hmodle : (src_sz + 1) % SIZE_MOD ≤ src_sz + 1 := Nat.mod_le _ _
    have hc : ¬ (src_sz + 1) % SIZE_MOD > dst_sz := by omega
    obtain ⟨r, d2, hr, _, hm, _⟩ := copy_loop_in_bounds s src_sz 0 d (by omega)
    have hneg : r = -1 := hm.2 ⟨k, Nat.zero_le _, by omega, hz⟩
    subst hneg
    have hret : my_str_to_c_str (some d) dst_sz (some s) src_sz = .ret (-1, some d2) := by
      unfold my_str_to_c_str
      simp only [hc, if_false, hr]
    obtain ⟨k', out, ho, hk', hz', hfirst', _, hlen, hcp, hu⟩ := inv d s (some d2) hc hret
    simp only [Option.some.injEq] at ho
    subst ho
    have hkk : k' = k := by
      rcases Nat.lt_trichotomy k' k with h1 | h1 | h1
      · exact absurd hz' (hfirst k' h1)
      · exact h1
      · exact absurd hz (hfirst' k h1)
    subst hkk
    exact ⟨d2, hret, hlen, hcp, hu⟩
  · intro d' h
    cases dst with
    | none =>
      left
      refine ⟨Or.inl rfl, ?_⟩
      have := my_str_to_c_str_absent none dst_sz src src_sz (Or.inl rfl)
      rw [this] at h
      simp only [Run.ret.injEq, Prod.mk.injEq, true_and] at h
      exact h.symm
    | some d =>
      cases src with
      | none =>
        left
        refine ⟨Or.inr (Or.inl rfl), ?_⟩
        have := my_str_to_c_str_absent (some d) dst_sz none src_sz (Or.inr rfl)
        rw [this] at h
        simp only [Run.ret.injEq, Prod.mk.injEq, true_and] at h
        exact h.symm
      | some s =>
        by_cases hc : (src_sz + 1) % SIZE_MOD > dst_sz
        · left
          refine ⟨Or.inr (Or.inr hc), ?_⟩
          simp only [my_str_to_c_str, hc, if_true, Run.ret.injEq, Prod.mk.injEq, true_and] at h
          exact h.symm
        · right
          obtain ⟨k, out, ho, hk, hz, hfirst, hkl, hlen, hcp, hu⟩ := inv d s d' hc h
          exact ⟨d, s, k, out, rfl, rfl, ho, hk, hz, hfirst, hkl, hlen, hcp, hu⟩

/-- C18 (witness): an oversize source leaves a three-byte array untouched, and the source
1, 2, 0, 4 with declared length 4 leaves 1, 2 followed by the old bytes in a six-byte
array. -/
theorem my_str_to_c_str_failure_effect_witness :
    my_str_to_c_str (some [170, 171, 172]) 3 (some (mem_of [1, 2, 3])) 3
        = .ret (-1, some [170, 171, 172]) ∧
    ∃ out, my_str_to_c_str (some [170, 171, 172, 173, 174, 175]) 6 (some (mem_of [1, 2, 0, 4])) 4
        = .ret (-1, some out) ∧
      out.length = [170, 171, 172, 173, 174, 175].length ∧
      (∀ j, j < 2 → out[j]? = some (mem_of [1, 2, 0, 4] j)) ∧
      (∀ j, 2 ≤ j → out[j]? = [170, 171, 172, 173, 174, 175][j]?) :=
  ⟨(my_str_to_c_str_failure_effect (some [170, 171, 172]) 3 (some (mem_of [1, 2, 3])) 3).1
      (Or.inr (Or.inr (by decide))),
    (my_str_to_c_str_failure_effect (some [170, 171, 172, 173, 174, 175]) 6
      (some (mem_of [1, 2, 0, 4])) 4).2.1 [170, 171, 172, 173, 174, 175] (mem_of [1, 2, 0, 4]) 2
      rfl rfl (by decide) (by decide) (by decide) (by decide) (by decide)⟩

/-! ## C11: the bounds of the copies -/

/-- C11 (failing input): with the declared length `2 ^ 64 - 1`, an unsigned 64-bit value,
and an argument of non-zero bytes, `src_sz + 1` computed modulo `2 ^ 64` is 0 and passes
the size check, and the copy into `pass[129]` (in `bcrypt_hash` and in `bcrypt_check`)
and the copy into `hash[64]` (in `bcrypt_check`) each store at an index that is not below
the capacity of the array; so do `bcrypt_hash` and `bcrypt_check` called with such an
argument, before they reach `crypt_rn` or `timing_safe_strcmp`. -/
theorem copy_size_max_out_of_bounds (P : Primitive) (w : World) (fuel : Nat)
    (c : Option Int) (len is_null : Nat) (junk : Nat → Nat → Nat)
    (args1 : Option (Nat → Nat)) (lengths1 : Nat) :
    (2 ^ 64 - 1 + 1) % SIZE_MOD = 0 ∧
    my_str_to_c_str (some (uninit (junk 0) (PASS_MAXLEN + 1))) (PASS_MAXLEN + 1)
      (some (fun _ => 66)) (2 ^ 64 - 1) = .oob ∧
    my_str_to_c_str (some (uninit (junk 1) BCRYPT_HASHSIZE)) BCRYPT_HASHSIZE
      (some (fun _ => 66)) (2 ^ 64 - 1) = .oob ∧
    bcrypt_hash P w fuel (some (fun _ => 66)) (2 ^ 64 - 1) c len is_null = .oob ∧
    bcrypt_check P junk (some (fun _ => 66)) (2 ^ 64 - 1) args1 lengths1 is_null = .oob ∧
    bcrypt_check P junk (some (mem_of [104, 105])) 2 (some (fun _ => 66)) (2 ^ 64 - 1) is_null
      = .oob := by
  have hw := copy_pass_size_max_oob (w.junk 0) (fun _ => 66)
    (fun _ _ => (by decide : (66 : Nat) ≠ 0))
  have hp := copy_pass_size_max_oob (junk 0) (fun _ => 66)
    (fun _ _ => (by decide : (66 : Nat) ≠ 0))
  have hh := copy_hash_size_max_oob (junk 1) (fun _ => 66)
    (fun _ _ => (by decide : (66 : Nat) ≠ 0))
  refine ⟨by decide, hp, hh, ?_, ?_, ?_⟩
  · unfold bcrypt_hash
    simp only [hw]
  · unfold bcrypt_check
    simp only [hp]
  · exact bcrypt_check_hash_oob P junk (mem_of [104, 105]) 2 (fun _ => 66) _ is_null
      (by decide) (by decide) hh

/-! ## C15: the registration adapters -/

/-- C15: for a host structure whose `arg_type` array has `arg_count` entries,
`bcrypt_hash_init` and `bcrypt_check_init` each return 1 if and only if `arg_count` is not
2, and then write their error message and leave both structures as they were; when
`arg_count` is 2 they return 0, leave the message untouched and leave the descriptor with
`maybe_null = 1`, `const_item = 0` and `max_length = 64`, the argument types being
(string, integer) for hash and (string, string) for check. -/
theorem bcrypt_init_adapters (initid : UDF_INIT) (args : UDF_ARGS) (message : String)
    (hwf : args.arg_type.length = args.arg_count) :
    (∃ r, bcrypt_hash_init initid args message = .ret r ∧
      (r.ret = 1 ↔ args.arg_count ≠ 2) ∧ (r.ret = 0 ↔ args.arg_count = 2) ∧
      (args.arg_count ≠ 2 → r.initid = initid ∧ r.args = args ∧
        r.message = "BCRYPT_HASH() requires a string and an integer parameter") ∧
      (args.arg_count = 2 → r.initid.maybe_null = 1 ∧ r.initid.const_item = 0 ∧
        r.initid.max_length = 64 ∧ r.args.arg_count = 2 ∧
        r.args.arg_type = [Item_result.STRING_RESULT, Item_result.INT_RESULT] ∧
        r.message = message)) ∧
    (∃ r, bcrypt_check_init initid args message = .ret r ∧
      (r.ret = 1 ↔ args.arg_count ≠ 2) ∧ (r.ret = 0 ↔ args.arg_count = 2) ∧
      (args.arg_count ≠ 2 → r.initid = initid ∧ r.args = args ∧
        r.message = "BCRYPT_CHECK() requires two string parameters") ∧
      (args.arg_count = 2 → r.initid.maybe_null = 1 ∧ r.initid.const_item = 0 ∧
        r.initid.max_length = 64 ∧ r.args.arg_count = 2 ∧
        r.args.arg_type = [Item_result.STRING_RESULT, Item_result.STRING_RESULT] ∧
        r.message = message)) := by
  obtain ⟨cnt, ty⟩ := args
  simp only at hwf
  by_cases hc : cnt = 2
  · subst hc
    match ty, hwf with
    | [a, b], _ =>
      constructor
      · refine ⟨⟨0, ⟨1, BCRYPT_HASHSIZE, 0⟩,
          ⟨2, [Item_result.STRING_RESULT, Item_result.INT_RESULT]⟩, message⟩,
          by simp [bcrypt_hash_init], ?_, ?_, ?_, ?_⟩ <;> simp [BCRYPT_HASHSIZE]
      · refine ⟨⟨0, ⟨1, BCRYPT_HASHSIZE, 0⟩,
          ⟨2, [Item_result.STRING_RESULT, Item_result.STRING_RESULT]⟩, message⟩,
          by simp [bcrypt_check_init], ?_, ?_, ?_, ?_⟩ <;> simp [BCRYPT_HASHSIZE]
  · constructor
    · refine ⟨⟨1, initid, ⟨cnt, ty⟩,
        "BCRYPT_HASH() requires a string and an integer parameter"⟩,
        by simp [bcrypt_hash_init, hc], ?_, ?_, ?_, ?_⟩ <;> simp [hc]
    · refine ⟨⟨1, initid, ⟨cnt, ty⟩, "BCRYPT_CHECK() requires two string parameters"⟩,
        by simp [bcrypt_check_init, hc], ?_, ?_, ?_, ?_⟩ <;> simp [hc]

/-- C15 (witness): two arguments of types (real, real) are accepted and coerced; one
argument is refused with the message. -/
theorem bcrypt_init_adapters_witness :
    (∃ r, bcrypt_hash_init ⟨0, 0, 1⟩ ⟨2, [Item_result.REAL_RESULT, Item_result.REAL_RESULT]⟩ ""
        = .ret r ∧ r.ret = 0 ∧ r.initid.maybe_null = 1 ∧ r.initid.const_item = 0 ∧
      r.initid.max_length = 64 ∧
      r.args.arg_type = [Item_result.STRING_RESULT, Item_result.INT_RESULT]) ∧
    (∃ r, bcrypt_check_init ⟨0, 0, 1⟩ ⟨1, [Item_result.REAL_RESULT]⟩ "" = .ret r ∧ r.ret = 1 ∧
      r.message = "BCRYPT_CHECK() requires two string parameters") := by
  obtain ⟨⟨r, h, _, h0, _, h2⟩, _⟩ := bcrypt_init_adapters ⟨0, 0, 1⟩
    ⟨2, [Item_result.REAL_RESULT, Item_result.REAL_RESULT]⟩ "" rfl
  obtain ⟨_, ⟨r', h', h1', _, hm', _⟩⟩ := bcrypt_init_adapters ⟨0, 0, 1⟩
    ⟨1, [Item_result.REAL_RESULT]⟩ "" rfl
  obtain ⟨a, b, c, _, e, _⟩ := h2 rfl
  exact ⟨⟨r, h, h0.2 rfl, a, b, c, e⟩, ⟨r', h', h1'.2 (by decide), (hm' (by decide)).2.2⟩⟩

/-! ## C13: release of the entropy handle -/

set_option maxRecDepth 100000 in
/-- C13 (counterexample): the claim "close is invoked on the handle exactly once" fails in a
world whose first `close` call reports `EINTR`: `try_close` calls `close` again, and the
successful run of `bcrypt_hash` has invoked `close` on descriptor 3 twice. -/
theorem bcrypt_hash_close_twice_counterexample :
    bcrypt_hash toy_primitive toy_world_eintr 5 (some (mem_of [104, 105])) 2 (some 10) 7 0
      = .ret ⟨some (toy_hash_hi ++ [0]), 24, 0,
          [Sys.sys_open, Sys.sys_read 3 0 16, Sys.sys_close 3, Sys.sys_close 3]⟩ := by
  decide

/-- C13 (amended): whenever `bcrypt_hash` returns, if `open` was reached and succeeded the
system calls are `open`, then `read` calls, then `nc ≥ 1` calls of `close` on the handle
and nothing after them: `try_close` ran once, every `close` call but the last reported
`EINTR` and the last did not, so `close` is invoked exactly once when it does not report
`EINTR`; and if `open` failed or was never reached, `close` is never invoked. -/
theorem bcrypt_hash_close_calls (P : Primitive) (w : World) (fuel : Nat)
    (args0 : Option (Nat → Nat)) (lengths0 : Nat) (args1 : Option Int) (len is_null : Nat)
    (out : HashResult)
    (h : bcrypt_hash P w fuel args0 lengths0 args1 len is_null = .ret out) :
    ((0 ≤ w.open_fd ∧ out.sys ≠ []) →
      ∃ reads nc, out.sys
          = Sys.sys_open :: (reads ++ List.replicate nc (Sys.sys_close w.open_fd)) ∧
        (∀ e ∈ reads, ∃ off n, e = Sys.sys_read w.open_fd off n) ∧
        1 ≤ nc ∧
        (∀ j, j + 1 < nc → w.close j w.open_fd = .eintr) ∧
        w.close (nc - 1) w.open_fd ≠ .eintr ∧
        ((∀ j, w.close j w.open_fd ≠ .eintr) → nc = 1)) ∧
    ((w.open_fd < 0 ∨ out.sys = []) → ∀ fd, Sys.sys_close fd ∉ out.sys) := by
  rcases bcrypt_hash_sys P w fuel args0 lengths0 args1 len is_null out h with
    h0 | ⟨hfd, h1⟩ | ⟨hfd, rd, randb, reads, cl, nc, hread, hclose, hsys⟩
  · refine ⟨fun hh => absurd h0 hh.2, fun _ fd hm => ?_⟩
    rw [h0] at hm
    cases hm
  · refine ⟨fun hh => by omega, fun _ fd hm => ?_⟩
    rw [h1] at hm
    simp at hm
  · obtain ⟨hk, he, hlast⟩ := try_close_spec w.close w.open_fd fuel 0 cl nc hclose
    have hrd := try_read_loop_trace w.read w.open_fd RANDBYTES fuel 0 [] _ 0 rd randb reads
      (fun e he => by cases he) hread
    refine ⟨fun _ => ⟨reads, nc, hsys, hrd, hk, fun j hj => he j (Nat.zero_le _) hj, ?_, ?_⟩,
      ?_⟩
    · rcases hlast with ⟨_, hl⟩ | ⟨_, hl⟩ <;> rw [hl] <;> exact fun e => by cases e
    · intro hne
      by_contra hnc
      exact hne 0 (he 0 (Nat.zero_le _) (by omega))
    · rintro (hneg | hnil) fd hm
      · omega
      · rw [hsys] at hnil
        cases hnil

set_option maxRecDepth 100000 in
/-- C13 (witness): in the concrete world, whose `close` succeeds at once, hashing "hi" issues
`open`, one `read` and exactly one `close`. -/
theorem bcrypt_hash_close_calls_witness :
    ∃ reads nc, [Sys.sys_open, Sys.sys_read 3 0 16, Sys.sys_close 3]
        = Sys.sys_open :: (reads ++ List.replicate nc (Sys.sys_close toy_world.open_fd)) ∧
      (∀ e ∈ reads, ∃ off n, e = Sys.sys_read toy_world.open_fd off n) ∧
      1 ≤ nc ∧
      (∀ j, j + 1 < nc → toy_world.close j toy_world.open_fd = .eintr) ∧
      toy_world.close (nc - 1) toy_world.open_fd ≠ .eintr ∧
      ((∀ j, toy_world.close j toy_world.open_fd ≠ .eintr) → nc = 1) :=
  (bcrypt_hash_close_calls toy_primitive toy_world 5 (some (mem_of [104, 105])) 2 (some 10) 7 0
    ⟨some (toy_hash_hi ++ [0]), 24, 0, [Sys.sys_open, Sys.sys_read 3 0 16, Sys.sys_close 3]⟩
    (by decide)).1 ⟨by decide, by decide⟩

/-! ## C12: what try_read returns -/

/-- C12: for a `read` oracle that returns at most the number of bytes asked for and an
array of at least `count` bytes, whenever `try_read` returns: its calls are one per
oracle result, each at the offset reached by the bytes delivered so far; `out` holds
those bytes in order; it returns 0 if and only if the bytes delivered by the reads
number exactly `count`, and then `out[0..count)` is their concatenation and every
result was `EINTR` or at least one byte; otherwise it returns -1, fewer than `count`
bytes were delivered and the last result was end of file or an error other than `EINTR`;
any such result makes it return -1; a call that reported `EINTR` is followed by the
same call (same offset, same byte count); and more fuel gives the same result.  It does
return when the oracle never reports `EINTR` forever.  A return other than 0 makes
`bcrypt_hash` return NULL with `*is_null = 1`. -/
theorem try_read_accumulates (read : Nat → Int → Nat → ReadResult) (fd : Int)
    (out : List Nat) (count : Nat)
    (hwb : ∀ k n bs, read k fd n = ReadResult.data bs → bs.length ≤ n)
    (hcap : count ≤ out.length) :
    (∀ (fuel : Nat) (rv : Int) (out' : List Nat) (tr : List Sys),
      try_read read fuel fd out count = .ret (rv, out', tr) →
      tr = read_calls fd count 0 (results_of read 0 tr) ∧
      out' = store out 0 (delivered (results_of read 0 tr)) ∧
      (rv = 0 ↔ (delivered (results_of read 0 tr)).length = count) ∧
      (rv = 0 → out'.take count = delivered (results_of read 0 tr) ∧
        ∀ r ∈ results_of read 0 tr, goes_on r) ∧
      (rv ≠ 0 → rv = -1 ∧ (delivered (results_of read 0 tr)).length < count ∧
        ∃ init last, results_of read 0 tr = init ++ [last] ∧
          (∀ r ∈ init, goes_on r) ∧ gives_up last) ∧
      ((∃ r ∈ results_of read 0 tr, gives_up r) → rv = -1) ∧
      (∀ j off n, tr[j]? = some (Sys.sys_read fd off n) → read j fd n = ReadResult.eintr →
        tr[j + 1]? = some (Sys.sys_read fd off n)) ∧
      (∀ d, try_read read (fuel + d) fd out count = .ret (rv, out', tr))) ∧
    ((∀ k n, ∃ m, read (k + m) fd n ≠ ReadResult.eintr) →
      ∃ fuel rv out' tr, try_read read fuel fd out count = .ret (rv, out', tr)) ∧
    (∀ (P : Primitive) (w : World) (fuel : Nat) (s : Nat → Nat) (n : Nat) (c : Option Int)
      (len is_null : Nat) (rd : Int) (randb : List Nat) (reads : List Sys) (cl : Int)
      (nc : Nat),
      n ≤ PASS_MAXLEN → (∀ j, j < n → s j ≠ 0) → 0 ≤ w.open_fd →
      try_read w.read fuel w.open_fd (uninit (w.junk 1) RANDBYTES) RANDBYTES
        = .ret (rd, randb, reads) →
      rd ≠ 0 →
      try_close w.close w.open_fd fuel 0 = .ret (cl, nc) →
      bcrypt_hash P w fuel (some s) n c len is_null
        = .ret ⟨none, len, 1,
            Sys.sys_open :: (reads ++ List.replicate nc (Sys.sys_close w.open_fd))⟩) := by
  refine ⟨?_, ?_, ?_⟩
  · intro fuel rv out' tr h
    obtain ⟨new, ht, hall, hcalls, hout, hsum, hcase, hlast⟩ :=
      try_read_loop_spec read fd count hwb fuel 0 [] out 0 rv out' tr (Nat.zero_le _) hcap h
    simp only [List.nil_append] at ht
    subst ht
    simp only [Nat.zero_add] at hsum hcase
    have hretry := read_calls_retry read fd count tr 0 0 hall hcalls hlast
    refine ⟨hcalls, hout, ?_, ?_, ?_, ?_, ?_, ?_⟩
    · rcases hcase with ⟨h1, h2, _⟩ | ⟨h1, h2, _⟩
      · exact ⟨fun _ => h2, fun _ => h1⟩
      · constructor
        · intro h0; rw [h0] at h1; exact absurd h1 (by decide)
        · intro h0; omega
    · intro h0
      rcases hcase with ⟨_, h2, h3⟩ | ⟨h1, _, _⟩
      · refine ⟨?_, h3⟩
        rw [hout, ← h2]
        exact take_store_zero _ _
      · rw [h0] at h1; exact absurd h1 (by decide)
    · intro h0
      rcases hcase with ⟨h1, _, _⟩ | ⟨h1, h2, h3⟩
      · exact absurd h1 h0
      · exact ⟨h1, h2, h3⟩
    · rintro ⟨r, hr, hg⟩
      rcases hcase with ⟨_, _, h3⟩ | ⟨h1, _, _⟩
      · exact absurd hg (goes_on_not_gives_up r (h3 r hr))
      · exact h1
    · intro j off n h1 h2
      exact hretry j off n h1 (by rw [Nat.zero_add]; exact h2)
    · intro d
      exact try_read_loop_mono read fd count fuel 0 [] out 0 _ h d
  · intro hfin
    obtain ⟨fuel, ⟨rv, out', tr⟩, hx⟩ := try_read_loop_terminates read fd count hwb hfin count 0
      [] out 0 (by omega) (Nat.zero_le _) hcap
    exact ⟨fuel, rv, out', tr, hx⟩
  · intro P w fuel s n c len is_null rd randb reads cl nc hn hnz hopen hread hrd hclose
    exact bcrypt_hash_read_fail P w fuel s n c len is_null rd randb reads cl nc hn hnz hopen
      hread hrd hclose

set_option maxRecDepth 100000 in
/-- C12 (witness): with `toy_read_chunked` (EINTR, five bytes, EINTR, eleven bytes)
`try_read` of 16 bytes returns 0 and the array holds the sixteen bytes in order; with
`toy_read_eof` (three bytes, then end of file) it returns -1 and `bcrypt_hash` returns
NULL with `*is_null = 1`. -/
theorem try_read_accumulates_witness :
    try_read toy_read_chunked 5 3 (List.replicate 16 170) 16
      = .ret (0, [1, 2, 3, 4, 5, 101, 102, 103, 104, 105, 106, 107, 108, 109, 110, 111],
          [Sys.sys_read 3 0 16, Sys.sys_read 3 0 16, Sys.sys_read 3 5 11,
            Sys.sys_read 3 5 11]) ∧
    ((0 : Int) = 0 ↔ (delivered (results_of toy_read_chunked 0
      [Sys.sys_read 3 0 16, Sys.sys_read 3 0 16, Sys.sys_read 3 5 11,
        Sys.sys_read 3 5 11])).length = 16) ∧
    bcrypt_hash toy_primitive toy_world_eof 5 (some (mem_of [104, 105])) 2 (some 10) 7 0
      = .ret ⟨none, 7, 1,
          Sys.sys_open :: ([Sys.sys_read 3 0 16, Sys.sys_read 3 3 13]
            ++ List.replicate 1 (Sys.sys_close toy_world_eof.open_fd))⟩ :=
  ⟨by decide,
    ((try_read_accumulates toy_read_chunked 3 (List.replicate 16 170) 16
      (fun k n bs h => toy_read_chunked_le k 3 n bs h) (by decide)).1 5 0
      [1, 2, 3, 4, 5, 101, 102, 103, 104, 105, 106, 107, 108, 109, 110, 111]
      [Sys.sys_read 3 0 16, Sys.sys_read 3 0 16, Sys.sys_read 3 5 11, Sys.sys_read 3 5 11]
      (by decide)).2.2.1,
    (try_read_accumulates toy_read_chunked 3 (List.replicate 16 170) 16
      (fun k n bs h => toy_read_chunked_le k 3 n bs h) (by decide)).2.2
      toy_primitive toy_world_eof 5 (mem_of [104, 105]) 2 (some 10) 7 0 (-1)
      [1, 2, 3, 170, 170, 170, 170, 170, 170, 170, 170, 170, 170, 170, 170, 170]
      [Sys.sys_read 3 0 16, Sys.sys_read 3 3 13] 0 1
      (by decide) (by decide) (by decide) (by decide) (by decide) (by decide)⟩

/-! ## C17: the loop invariant and the termination of try_read -/

/-- C17: for a `read` oracle that returns at most the number of bytes asked for and an
array of at least `count` bytes: `try_read` never stores outside the array; whenever it
returns, every `read` was issued at an offset `off < count` (the value of `total`) for
exactly `count - off` bytes, the bytes delivered in all number at most `count`, the
array keeps its capacity and its bytes at and beyond `count`, and from one call to the
next the offset stays the same after `EINTR` and grows by the positive number of bytes
delivered otherwise; and `try_read` returns, given enough fuel, for every oracle that
never reports `EINTR` forever. -/
theorem try_read_invariant (read : Nat → Int → Nat → ReadResult) (fd : Int)
    (out : List Nat) (count : Nat)
    (hwb : ∀ k n bs, read k fd n = ReadResult.data bs → bs.length ≤ n)
    (hcap : count ≤ out.length) :
    (∀ fuel, try_read read fuel fd out count ≠ .oob) ∧
    (∀ (fuel : Nat) (rv : Int) (out' : List Nat) (tr : List Sys),
      try_read read fuel fd out count = .ret (rv, out', tr) →
      (∀ e ∈ tr, ∃ off, off < count ∧ e = Sys.sys_read fd off (count - off)) ∧
      (delivered (results_of read 0 tr)).length ≤ count ∧
      out'.length = out.length ∧ out'.drop count = out.drop count ∧
      (∀ j off n off' n', tr[j]? = some (Sys.sys_read fd off n) →
        tr[j + 1]? = some (Sys.sys_read fd off' n') →
        (read j fd n = ReadResult.eintr ∧ off' = off) ∨
        (∃ bs, read j fd n = ReadResult.data bs ∧ 0 < bs.length ∧
          off' = off + bs.length ∧ off < off'))) ∧
    ((∀ k n, ∃ m, read (k + m) fd n ≠ ReadResult.eintr) →
      ∃ fuel rv out' tr, try_read read fuel fd out count = .ret (rv, out', tr)) := by
  refine ⟨?_, ?_, ?_⟩
  · intro fuel
    exact try_read_loop_no_oob read fd count hwb fuel 0 [] out 0 (Nat.zero_le _) hcap
  · intro fuel rv out' tr h
    obtain ⟨new, ht, hall, hcalls, hout, hsum, hcase, hlast⟩ :=
      try_read_loop_spec read fd count hwb fuel 0 [] out 0 rv out' tr (Nat.zero_le _) hcap h
    simp only [List.nil_append] at ht
    subst ht
    simp only [Nat.zero_add] at hsum hcase
    have hoff := try_read_loop_offsets read fd count fuel 0 [] out 0 rv out' tr
      (fun e he => by cases he) h
    have hgood : ∀ r ∈ (results_of read 0 tr).dropLast, goes_on r := by
      rcases hcase with ⟨_, _, h3⟩ | ⟨_, _, init, last, h3, h4, _⟩
      · exact fun r hr => h3 r (List.mem_of_mem_dropLast hr)
      · rw [h3, List.dropLast_concat]; exact h4
    have hstep := read_calls_step read fd count tr 0 0 hall hcalls hgood
    refine ⟨hoff, hsum, try_read_length _ _ _ _ _ _ _ _ h, ?_, ?_⟩
    · rw [hout]
      exact drop_store_zero _ _ _ hsum
    · intro j off n off' n' h1 h2
      obtain ⟨hg, ho⟩ := hstep j off n off' n' h1 h2
      rw [Nat.zero_add] at hg ho
      rcases hg with hg | ⟨bs, hg, hb⟩
      · left
        rw [hg] at ho
        exact ⟨hg, by simpa [delivered] using ho⟩
      · right
        rw [hg] at ho
        have ho' : off' = off + bs.length := by simpa [delivered] using ho
        exact ⟨bs, hg, hb, ho', by omega⟩
  · intro hfin
    obtain ⟨fuel, ⟨rv, out', tr⟩, hx⟩ := try_read_loop_terminates read fd count hwb hfin count 0
      [] out 0 (by omega) (Nat.zero_le _) hcap
    exact ⟨fuel, rv, out', tr, hx⟩

set_option maxRecDepth 100000 in
/-- C17 (witness): with `toy_read_chunked` no store of `try_read` leaves a 16-byte array,
and `try_read` returns. -/
theorem try_read_invariant_witness :
    (∀ fuel, try_read toy_read_chunked fuel 3 (List.replicate 16 170) 16 ≠ .oob) ∧
    ∃ fuel rv out' tr,
      try_read toy_read_chunked fuel 3 (List.replicate 16 170) 16 = .ret (rv, out', tr) :=
  ⟨(try_read_invariant toy_read_chunked 3 (List.replicate 16 170) 16
      (fun k n bs h => toy_read_chunked_le k 3 n bs h) (by decide)).1,
    (try_read_invariant toy_read_chunked 3 (List.replicate 16 170) 16
      (fun k n bs h => toy_read_chunked_le k 3 n bs h) (by decide)).2.2
      (fun k n => toy_read_chunked_fin k 3 n)⟩

end Bcrypt
